import Mathlib

/-!
# Authorization resolution engine of `alauda-backend` (`pkg/auth`)

A shallow embedding of the permission model of `pkg/auth/auth.go`, of the
three fact caches it reads (`pkg/auth/userbinding`, `pkg/auth/user`,
`pkg/auth/clusterrole`) with their watch handlers, of the request locator
`pkg/auth/request/requestinfo.go`, of the label values of `pkg/dataselect`
and of the port validation of `pkg/server/options`, followed by theorems about
the embedded functions.

Conventions of the embedding

* A Go `string` is a Lean `String`; `len(s) > 0` is `s.length > 0`.
* A Go `map[string]V` is a `GoMap V`, the list of its entries.  Indexing reads
  the first entry with the key, assignment overwrites it in place or appends.
  Go leaves the order of `range` over a map unspecified.  For a map that is an
  input of the embedded function the list order stands for the order in which
  `range` visits it, so a statement proved for every list is proved for every
  visiting order.  For a map the function builds itself the visiting order is
  supplied by a `RangeOrder`.
* A Go slice is a `List`; where the code distinguishes a `nil` slice or map
  from an empty one the value is wrapped in `Option` with `none` for `nil`.
* A Go `error` result is an `Option` of the error value, `none` for `nil`.
* A function that can panic on an index out of range returns an `Option`,
  `none` for the panic; every index read goes through `[i]?`.
* The goroutine/channel pairs of `GetUserPermissions` and
  `GetUserBindingPermissions` send on an unbuffered channel that the caller
  drains before it starts the next goroutine, so each pair is embedded as the
  sequential loop it is equivalent to.
-/

/-! ## Go standard library: `strings` -/

namespace strings

/-- Pieces of `s` between occurrences of the character `sep`: the character
level of `strings.Split` for a one-character separator. -/
def splitChars (sep : Char) : List Char → List (List Char)
  | [] => [[]]
  | c :: cs =>
    if c = sep then [] :: splitChars sep cs
    else
      match splitChars sep cs with
      | [] => [[c]]
      | piece :: pieces => (c :: piece) :: pieces

/-- Go `strings.Split(s, sep)` for a separator of one character, as at both
call sites of the package (`","` and `"."`).  `Split "" sep` is `[""]`. -/
def Split (s : String) (sep : Char) : List String :=
  (splitChars sep s.data).map String.mk

/-- Go `strings.Join(elems, sep)`. -/
def Join : List String → String → String
  | [], _ => ""
  | [a], _ => a
  | a :: b :: rest, sep => a ++ sep ++ Join (b :: rest) sep

end strings

/-! ## Go maps -/

/-- A Go `map[string]V` as the list of its entries. -/
abbrev GoMap (V : Type) := List (String × V)

namespace GoMap

variable {V : Type}

/-- Go `v, ok := m[k]` as an option: `some v` when the key is present. -/
def get? : GoMap V → String → Option V
  | [], _ => none
  | (k', v) :: m, k => if k' = k then some v else get? m k

/-- Go `m[k] = v`. -/
def set : GoMap V → String → V → GoMap V
  | [], k, v => [(k, v)]
  | (k', v') :: m, k, v => if k' = k then (k, v) :: m else (k', v') :: set m k v

/-- Go `delete(m, k)`. -/
def delete : GoMap V → String → GoMap V
  | [], _ => []
  | (k', v') :: m, k => if k' = k then m else (k', v') :: delete m k

/-- Go `val, ok := m[k]` on a `map[string]string`: the zero value `""` and
`false` when the key is absent. -/
def index (m : GoMap String) (k : String) : String × Bool :=
  match m.get? k with
  | some val => (val, true)
  | none => ("", false)

/-- The keys of a map are pairwise distinct. -/
def WF (m : GoMap V) : Prop := (m.map Prod.fst).Nodup

end GoMap

/-- The orders in which the `range` statements of one call visit the maps the
call itself has built.  `keys` orders the key set of `actionsMap` in
`GetActionsForResourceFast`; `dims i` orders the constraint map of the `i`-th
permission derived by `GetUserPermissions`. -/
structure RangeOrder where
  keys : List String → List String
  keys_perm : ∀ l, (keys l).Perm l
  dims : Nat → GoMap String → GoMap String
  dims_perm : ∀ i m, (dims i m).Perm m

/-- The visiting order that follows insertion order everywhere. -/
def RangeOrder.insertion : RangeOrder where
  keys := id
  keys_perm := fun _ => List.Perm.refl _
  dims := fun _ => id
  dims_perm := fun _ _ => List.Perm.refl _

/-- The visiting order that reverses insertion order everywhere. -/
def RangeOrder.reversed : RangeOrder where
  keys := List.reverse
  keys_perm := fun l => List.reverse_perm l
  dims := fun _ => List.reverse
  dims_perm := fun _ m => List.reverse_perm m

/-! ## Kubernetes and API types read by the engine -/

namespace schema

/-- The type `schema.GroupResource` of apimachinery. -/
structure GroupResource where
  Group : String
  Resource : String
deriving DecidableEq

end schema

namespace rbacv1

/-- The type `rbacv1.PolicyRule`. -/
structure PolicyRule where
  Verbs : List String
  APIGroups : List String
  Resources : List String
  ResourceNames : List String
  NonResourceURLs : List String
deriving DecidableEq

/-- The type `rbacv1.ClusterRole`, with the metadata fields the engine reads. -/
structure ClusterRole where
  Name : String
  Labels : GoMap String
  Rules : List PolicyRule
deriving DecidableEq

end rbacv1

namespace authv1

/-- The constant `UserBindingScopeCluster`. -/
def UserBindingScopeCluster : String := "cluster"

/-- The type `Subject` of `userbinding_types.go`. -/
structure Subject where
  Kind : String
  Name : String
deriving DecidableEq

/-- The type `Constraint` of `userbinding_types.go`. -/
structure Constraint where
  Project : String
  Namespace : String
  Cluster : String
deriving DecidableEq

/-- The type `UserBindingSpec`. -/
structure UserBindingSpec where
  Subjects : List Subject
  RoleRef : String
  Scope : String
  Constraint : List Constraint
deriving DecidableEq

/-- The type `UserBinding`, with the metadata fields the engine reads. -/
structure UserBinding where
  Name : String
  Labels : GoMap String
  Spec : UserBindingSpec
deriving DecidableEq

/-- Method `RoleName`. -/
def UserBinding.RoleName (u : UserBinding) : String :=
  match u.Labels.get? "auth.cpaas.io/role.name" with
  | some name => name
  | none => ""

/-- Method `NamespaceCluster`. -/
def UserBinding.NamespaceCluster (u : UserBinding) : String :=
  match u.Labels.get? "cpaas.io/cluster" with
  | some cluster => cluster
  | none => ""

/-- Method `UserEmailName`. -/
def UserBinding.UserEmailName (u : UserBinding) : String :=
  match u.Labels.get? "auth.cpaas.io/user.email" with
  | some emailName => emailName
  | none => ""

/-- Method `ProjectName`. -/
def UserBinding.ProjectName (u : UserBinding) : String :=
  match u.Labels.get? "cpaas.io/project" with
  | some project => project
  | none => ""

/-- Method `NamespaceName`. -/
def UserBinding.NamespaceName (u : UserBinding) : String :=
  match u.Labels.get? "cpaas.io/namespace" with
  | some ns => ns
  | none => ""

/-- Method `GroupName`. -/
def UserBinding.GroupName (u : UserBinding) : String :=
  match u.Labels.get? "auth.cpaas.io/group.name" with
  | some group => group
  | none => ""

/-- The type `UserSpec`, with the field the engine reads. -/
structure UserSpec where
  Groups : List String
deriving DecidableEq

/-- The type `User`. -/
structure User where
  Name : String
  Spec : UserSpec
deriving DecidableEq

end authv1

/-- The errors of `k8s.io/apimachinery/pkg/api/errors` the engine creates. -/
inductive StatusError where
  | BadRequest (reason : String)
  | NotFound (qualifiedResource : schema.GroupResource) (name : String)
deriving DecidableEq

/-! ## `pkg/auth/auth.go`: permissions and constraint matching -/

def ResProject : String := "res:project"
def ResNamespace : String := "res:ns"
def ResResourceName : String := "res:name"
def ResCluster : String := "res:cluster"

/-- The type `Permission`.  `Constraints` lists the entries of the Go map in
the order in which `range` visits them. -/
structure Permission where
  RoleName : String
  Actions : List String
  Constraints : GoMap String
  Resource : schema.GroupResource
deriving DecidableEq

/-- Function `StringInSlice`. -/
def StringInSlice (a : String) : List String → Bool
  | [] => false
  | b :: list => if b = a then true else StringInSlice a list

/-- The loop of `matchAllConstraints` over the entries still to be visited. -/
def matchAllConstraintsLoop (constraints : GoMap String) : List (String × String) → Bool
  | [] => true
  | (k, v) :: rest =>
    let (val, ok) := constraints.index k
    if !ok || v != val then
      let clusters : List String := if k = ResCluster then strings.Split v ',' else []
      if StringInSlice val clusters then true else false
    else matchAllConstraintsLoop constraints rest

/-- Method `Permission.matchAllConstraints`. -/
def Permission.matchAllConstraints (p : Permission) (constraints : GoMap String) : Bool :=
  matchAllConstraintsLoop constraints p.Constraints

/-- Method `Permission.IsInConstraint`. -/
def Permission.IsInConstraint (p : Permission) (constraints : GoMap String) : Bool :=
  if p.Constraints.length = 0 then true
  else if p.matchAllConstraints constraints then true
  else false

/-- Function `NewPermission`. -/
def NewPermission (userbinding : authv1.UserBinding) (resource : schema.GroupResource)
    (actions : List String) (resourceName : String) : Permission :=
  let constraints : GoMap String := []
  let constraints :=
    if userbinding.ProjectName.length > 0 then
      constraints.set ResProject userbinding.ProjectName
    else constraints
  let constraints :=
    if userbinding.NamespaceName.length > 0 then
      constraints.set ResNamespace userbinding.NamespaceName
    else constraints
  let constraints :=
    if resourceName.length > 0 then constraints.set ResResourceName resourceName
    else constraints
  let constraints :=
    if userbinding.NamespaceCluster.length > 0 then
      constraints.set ResCluster userbinding.NamespaceCluster
    else constraints
  let constraints :=
    if userbinding.Spec.Scope = authv1.UserBindingScopeCluster then
      let clusters : List String :=
        userbinding.Spec.Constraint.foldl (fun clusters c => clusters ++ [c.Cluster]) []
      constraints.set ResCluster (strings.Join clusters ",")
    else constraints
  { RoleName := userbinding.RoleName
    Actions := actions
    Constraints := constraints
    Resource := resource }

/-- Function `hasAction`. -/
def hasAction (action : String) : List String → Bool
  | [] => false
  | a :: allowed =>
    if a = "*" then true
    else if a = action then true
    else hasAction action allowed

/-! ## The fact caches -/

namespace userbinding

/-- The type `userbinding.Resolver`: the subject index `cache` and the group
index `gcache`, each from an index key to the bindings by binding name. -/
structure Resolver where
  cache : GoMap (GoMap authv1.UserBinding)
  gcache : GoMap (GoMap authv1.UserBinding)

/-- Method `GetUserBindings`. -/
def Resolver.GetUserBindings (r : Resolver) (user : String) : List authv1.UserBinding :=
  match r.cache.get? user with
  | none => []
  | some data => data.foldl (fun ret kv => ret ++ [kv.2]) []

/-- Method `GetUserBindingsByGroups`. -/
def Resolver.GetUserBindingsByGroups (r : Resolver) (groups : List String) :
    List authv1.UserBinding :=
  groups.foldl
    (fun ret group =>
      match r.gcache.get? group with
      | none => ret
      | some data => data.foldl (fun ret kv => ret ++ [kv.2]) ret)
    []

end userbinding

namespace user

/-- The type `user.Manager`: users by name. -/
structure Manager where
  cache : GoMap authv1.User

/-- Modelled from the spec: the API group of `authv1.SchemeGroupVersion`, whose
declaration is not among the source files; the value is the group shown by
the log lines quoted in `auth.go`.  It is only carried inside the not-found
error of `Get`. -/
def SchemeGroupVersionGroup : String := "auth.alauda.io"

/-- Method `Get`: the user and a nil error, or nil and a not-found error. -/
def Manager.Get (m : Manager) (name : String) : Option authv1.User × Option StatusError :=
  match m.cache.get? name with
  | none => (none, some (StatusError.NotFound ⟨SchemeGroupVersionGroup, "User"⟩ name))
  | some u => (some u, none)

end user

namespace clusterrole

/-- The type `clusterrole.Resolver`: roles by role name. -/
structure Resolver where
  cache : GoMap rbacv1.ClusterRole

/-- Method `GetClusterRoles`. -/
def Resolver.GetClusterRoles (r : Resolver) (roleRelativeName : String) :
    List rbacv1.ClusterRole :=
  r.cache.foldl
    (fun ret kv =>
      match kv.2.Labels.get? "auth.cpaas.io/role.relative" with
      | none => ret
      | some relativeName =>
        if relativeName ≠ roleRelativeName then ret else ret ++ [kv.2])
    []

end clusterrole

/-! ## `pkg/auth/auth.go`: expansion, aggregation and decision -/

/-- The type `AuthManager`, with the three resolvers the decision reads. -/
structure AuthManager where
  userBindingResolver : userbinding.Resolver
  userResolver : user.Manager
  clusterRoleResolver : clusterrole.Resolver

/-- The permissions one rule sends on the channel in
`GetUserBindingPermissions`: the loops over its API groups, resources and
resource names. -/
def rulePermissions (userbinding : authv1.UserBinding) (resource : schema.GroupResource)
    (rule : rbacv1.PolicyRule) : List Permission :=
  rule.APIGroups.foldl
    (fun sent group =>
      if resource.Group ≠ group ∧ group ≠ "*" then sent
      else
        rule.Resources.foldl
          (fun sent res =>
            if resource.Resource ≠ res ∧ res ≠ "*" then sent
            else if rule.ResourceNames.length > 0 then
              rule.ResourceNames.foldl
                (fun sent resourceName =>
                  sent ++ [NewPermission userbinding resource rule.Verbs resourceName])
                sent
            else sent ++ [NewPermission userbinding resource rule.Verbs ""])
          sent)
    []

/-- The permissions one cluster role sends on its channel: the loop over its
rules. -/
def clusterRolePermissions (userbinding : authv1.UserBinding)
    (resource : schema.GroupResource) (clusterRole : rbacv1.ClusterRole) : List Permission :=
  clusterRole.Rules.foldl
    (fun sent rule => sent ++ rulePermissions userbinding resource rule) []

/-- Method `AuthManager.GetUserBindingPermissions`. -/
def AuthManager.GetUserBindingPermissions (m : AuthManager)
    (userbinding : authv1.UserBinding) (resource : schema.GroupResource) :
    List Permission × Option StatusError :=
  let clusterRoles := m.clusterRoleResolver.GetClusterRoles userbinding.RoleName
  let permissions :=
    clusterRoles.foldl
      (fun permissions clusterRole =>
        permissions ++ clusterRolePermissions userbinding resource clusterRole)
      []
  (permissions, none)

/-- Method `AuthManager.GetUserPermissions`. -/
def AuthManager.GetUserPermissions (m : AuthManager) (user : String)
    (resource : schema.GroupResource) : List Permission × Option StatusError :=
  let userbindings := m.userBindingResolver.GetUserBindings user
  let userbindings :=
    match m.userResolver.Get user with
    | (some u, none) =>
      if u.Spec.Groups.length > 0 then
        let groupUserbindings := m.userBindingResolver.GetUserBindingsByGroups u.Spec.Groups
        if groupUserbindings.length > 0 then userbindings ++ groupUserbindings
        else userbindings
      else userbindings
    | _ => userbindings
  let permissions :=
    userbindings.foldl
      (fun permissions binding =>
        permissions ++ (m.GetUserBindingPermissions binding resource).1)
      []
  (permissions, none)

/-- The first loop of `GetActionsForResourceFast`: the key set of `actionsMap`
after the permissions are visited, a map to the empty struct kept as the list
of its keys. -/
def actionsMap (permissions : List Permission) (constraints : GoMap String) : List String :=
  permissions.foldl
    (fun keys p =>
      if p.IsInConstraint constraints then
        p.Actions.foldl (fun keys a => if a ∈ keys then keys else keys ++ [a]) keys
      else keys)
    []

/-- The second loop of `GetActionsForResourceFast` over the keys still to be
visited, with the slice `actions` built so far. -/
def collectActions : List String → List String → List String
  | [], actions => actions
  | k :: rest, actions =>
    if k = "*" then ["*"]
    else collectActions rest (actions ++ [k])

/-- Method `AuthManager.GetActionsForResourceFast`; `keys` is the order in
which `range actionsMap` visits the keys. -/
def GetActionsForResourceFast (keys : List String → List String)
    (permissions : List Permission) (constraints : GoMap String) : List String :=
  collectActions (keys (actionsMap permissions constraints)) []

/-- The permissions with each constraint map listed in the order in which
`range` will visit it: the `i`-th in the order `dims (start + i)`. -/
def arrange (dims : Nat → GoMap String → GoMap String) : Nat → List Permission → List Permission
  | _, [] => []
  | start, p :: rest =>
    { p with Constraints := dims start p.Constraints } :: arrange dims (start + 1) rest

/-- Method `AuthManager.GetActions`.  The action slice is `none` for the nil
slice returned with an error; `constraints` is `none` for a nil map. -/
def AuthManager.GetActions (m : AuthManager) (ord : RangeOrder) (user : String)
    (resource : schema.GroupResource) (constraints : Option (GoMap String))
    (useCache : Bool) : Option (List String) × Option StatusError :=
  let constraints : GoMap String :=
    match constraints with
    | none => []
    | some constraints => constraints
  if user = "" then (none, some (StatusError.BadRequest "user is empty"))
  else if resource.Resource = "" then
    (none, some (StatusError.BadRequest "resource is empty"))
  else
    let _ := useCache
    match m.GetUserPermissions user resource with
    | (_, some err) => (none, some err)
    | (userPerms, none) =>
      let actions :=
        GetActionsForResourceFast ord.keys (arrange ord.dims 0 userPerms) constraints
      (some actions, none)

/-- Method `AuthManager.Verify`. -/
def AuthManager.Verify (m : AuthManager) (ord : RangeOrder) (user : String) (action : String)
    (resource : schema.GroupResource) (constraints : Option (GoMap String)) :
    Bool × Option StatusError :=
  match m.GetActions ord user resource constraints true with
  | (_, some err) => (false, some err)
  | (actions, none) => (hasAction action (actions.getD []), none)

/-! ## `pkg/auth/user/user.go`: the watch handlers of the subject cache -/

namespace user

/-- Method `removeUser`; the argument is `none` for a nil pointer. -/
def Manager.removeUser (m : Manager) (u : Option authv1.User) : Manager :=
  match u with
  | none => m
  | some u => { cache := m.cache.delete u.Name }

/-- Method `addUser`. -/
def Manager.addUser (m : Manager) (u : Option authv1.User) : Manager :=
  match u with
  | none => m
  | some u =>
    if u.Spec.Groups.length = 0 then m
    else { cache := m.cache.set u.Name u }

/-- Method `updateUser`. -/
def Manager.updateUser (m : Manager) (u : Option authv1.User) : Manager :=
  match u with
  | none => m
  | some u =>
    if u.Spec.Groups.length = 0 then { cache := m.cache.delete u.Name }
    else { cache := m.cache.set u.Name u }

/-- The cache built by `NewResolver` before any event. -/
def Manager.empty : Manager := { cache := [] }

end user

/-! ## Go standard library: `strings`, continued, and `net/http` -/

namespace strings

/-- Go `strings.ToLower(s)` restricted to ASCII letters, for the method token
of a request only: `NewRequestInfo` stores the result and overwrites it before
any read.  `unicode.CaseTables.ToLower` is the function on every rune. -/
def ToLower (s : String) : String := String.mk (s.data.map Char.toLower)

/-- Go `strings.Trim(s, cutset)` for a cutset of one character: every leading
and trailing occurrence of `cut` is removed. -/
def Trim (s : String) (cut : Char) : String :=
  String.mk ((s.data.dropWhile (fun c => c = cut)).rdropWhile (fun c => c = cut))

end strings

namespace http

/-- The field `Path` of `url.URL`. -/
structure URL where
  Path : String
deriving DecidableEq

/-- The fields of `http.Request` read by the locator. -/
structure Request where
  Method : String
  URL : URL
deriving DecidableEq

end http

/-! ## `pkg/auth/request/requestinfo.go` -/

namespace request

/-- The type `RequestInfo`. -/
structure RequestInfo where
  Path : String
  Verb : String
  APIPrefix : String
  APIGroup : String
  APIVersion : String
  Namespace : String
  Cluster : String
  Project : String
  Level : String
  Resource : String
  Subresource : String
  Name : String
  Parts : List String
deriving DecidableEq

/-- The type `RequestInfoFactory`; a `sets.String` is the list of its
members. -/
structure RequestInfoFactory where
  APIPrefixes : List String
  GrouplessAPIPrefixes : List String

/-- The fields of `metainternalversion.ListOptions` read by the locator.
`FieldSelector` is `none` for a nil selector and otherwise holds the result of
`RequiresExactMatch("metadata.name")`. -/
structure ListOptions where
  Watch : Bool
  FieldSelector : Option (String × Bool)

/-- The zero value `metainternalversion.ListOptions{}`. -/
def ListOptions.zero : ListOptions := { Watch := false, FieldSelector := none }

/-- A model of `path.IsValidPathSegmentName` of apimachinery, a library
function outside the repository: the list of complaints about a name, empty
for a name that is neither `.` nor `..` and holds neither `/` nor `%`.  It is
called only under a non-nil field selector, which the zero-valued list
options do not have. -/
def IsValidPathSegmentName (name : String) : List String :=
  if name = "." then ["may not be ."]
  else if name = ".." then ["may not be .."]
  else
    (if '/' ∈ name.data then ["may not contain /"] else []) ++
      (if '%' ∈ name.data then ["may not contain %"] else [])

/-- Function `splitPath`. -/
def splitPath (path : String) : List String :=
  let path := strings.Trim path '/'
  if path = "" then []
  else strings.Split path '/'

/-- The `switch req.Method` of `NewRequestInfo`. -/
def methodVerb (method : String) : String :=
  if method = "POST" then "create"
  else if method = "GET" ∨ method = "HEAD" then "get"
  else if method = "PUT" then "update"
  else if method = "PATCH" then "patch"
  else if method = "DELETE" then "delete"
  else ""

/-- The part of `NewRequestInfo` that finds project, cluster and namespace in
the segments after the version.  The result is the updated request info with
the segments left over, or `none` when an index is out of range. -/
def locateScope (requestInfo : RequestInfo) (currentParts : List String) :
    Option (RequestInfo × List String) := do
  let first ← currentParts[0]?
  if first = "projects" then
    if currentParts.length > 1 then
      let project ← currentParts[1]?
      let requestInfo := { requestInfo with Project := project, Level := "project" }
      if currentParts.length > 2 then
        let currentParts := currentParts.drop 2
        let first ← currentParts[0]?
        if first = "clusters" then
          if currentParts.length > 1 then
            let cluster ← currentParts[1]?
            let requestInfo := { requestInfo with Cluster := cluster }
            if currentParts.length > 2 then
              let currentParts := currentParts.drop 2
              let first ← currentParts[0]?
              if first = "namespaces" then
                let ns ← currentParts[1]?
                let requestInfo := { requestInfo with Namespace := ns, Level := "namespace" }
                if currentParts.length > 2 then
                  some (requestInfo, currentParts.drop 2)
                else some (requestInfo, currentParts)
              else some (requestInfo, currentParts)
            else some (requestInfo, currentParts)
          else some (requestInfo, currentParts)
        else some (requestInfo, currentParts)
      else some (requestInfo, currentParts)
    else some (requestInfo, currentParts)
  else if first = "clusters" then
    if currentParts.length > 1 then
      let cluster ← currentParts[1]?
      let requestInfo :=
        { requestInfo with Cluster := cluster, Project := "", Namespace := "", Level := "cluster" }
      if currentParts.length > 2 then some (requestInfo, currentParts.drop 2)
      else some (requestInfo, currentParts)
    else some (requestInfo, currentParts)
  else
    some
      ({ requestInfo with Namespace := "", Project := "", Cluster := "", Level := "platform" },
        currentParts)

/-- The `switch` of `NewRequestInfo` over the number of segments left over,
with its fallthroughs: subresource, name and resource are read from `Parts`. -/
def fillParts (requestInfo : RequestInfo) (currentParts : List String) :
    Option RequestInfo := do
  let requestInfo := { requestInfo with Parts := currentParts }
  if requestInfo.Parts.length ≥ 3 then
    let subresource ← requestInfo.Parts[2]?
    let name ← requestInfo.Parts[1]?
    let resource ← requestInfo.Parts[0]?
    some { requestInfo with Subresource := subresource, Name := name, Resource := resource }
  else if requestInfo.Parts.length ≥ 2 then
    let name ← requestInfo.Parts[1]?
    let resource ← requestInfo.Parts[0]?
    some { requestInfo with Name := name, Resource := resource }
  else if requestInfo.Parts.length ≥ 1 then
    let resource ← requestInfo.Parts[0]?
    some { requestInfo with Resource := resource }
  else some requestInfo

/-- The part of `NewRequestInfo` that turns `get` and `delete` without a name
into `list` or `watch` and `deletecollection`. -/
def adjustVerb (requestInfo : RequestInfo) : RequestInfo :=
  let requestInfo :=
    if requestInfo.Name.length = 0 ∧ requestInfo.Verb = "get" then
      let opts := ListOptions.zero
      let requestInfo :=
        if opts.Watch then { requestInfo with Verb := "watch" }
        else { requestInfo with Verb := "list" }
      match opts.FieldSelector with
      | none => requestInfo
      | some (name, ok) =>
        if ok then
          if (IsValidPathSegmentName name).length = 0 then { requestInfo with Name := name }
          else requestInfo
        else requestInfo
    else requestInfo
  if requestInfo.Name.length = 0 ∧ requestInfo.Verb = "delete" then
    { requestInfo with Verb := "deletecollection" }
  else requestInfo

/-- Method `RequestInfoFactory.NewRequestInfo`.  The result is `none` when the
call panics on an index out of range, and otherwise the request info with the
error, which is always nil. -/
def RequestInfoFactory.NewRequestInfo (r : RequestInfoFactory) (req : http.Request) :
    Option (RequestInfo × Option StatusError) :=
  let requestInfo : RequestInfo :=
    { Path := req.URL.Path
      Verb := strings.ToLower req.Method
      APIPrefix := ""
      APIGroup := ""
      APIVersion := ""
      Namespace := ""
      Cluster := ""
      Project := ""
      Level := ""
      Resource := ""
      Subresource := ""
      Name := ""
      Parts := [] }
  let requestInfo := { requestInfo with Verb := methodVerb req.Method }
  let currentParts := splitPath req.URL.Path
  match currentParts[0]? with
  | none => none
  | some first =>
    if ¬ first ∈ r.APIPrefixes then some (requestInfo, none)
    else
      let requestInfo := { requestInfo with APIPrefix := first }
      let currentParts := currentParts.drop 1
      match currentParts[0]? with
      | none => none
      | some group =>
        let requestInfo := { requestInfo with APIGroup := group }
        let currentParts := currentParts.drop 1
        match currentParts[0]? with
        | none => none
        | some version =>
          let requestInfo := { requestInfo with APIVersion := version }
          let currentParts := currentParts.drop 1
          match locateScope requestInfo currentParts with
          | none => none
          | some (requestInfo, currentParts) =>
            match fillParts requestInfo currentParts with
            | none => none
            | some requestInfo => some (adjustVerb requestInfo, none)

end request

/-- The configuration of `AuthOptions.ApplyToServer`:
`sets.NewString("platform", "")`. -/
def configuredFactory : request.RequestInfoFactory :=
  { APIPrefixes := ["platform", ""], GrouplessAPIPrefixes := [] }

/-- A factory with the prefix of the scenarios of the design, `api`. -/
def apiFactory : request.RequestInfoFactory :=
  { APIPrefixes := ["api"], GrouplessAPIPrefixes := [] }

/-! ## `pkg/auth/userbinding/userbinding.go`: the watch handlers of the binding cache -/

namespace userbinding

/-- The block of `updateUserBinding` for one index: under a non-empty key the
binding is stored by its name in the inner map of the key, which is created
when the key has none. -/
def updateIndex (index : GoMap (GoMap authv1.UserBinding)) (key : String)
    (cr : authv1.UserBinding) : GoMap (GoMap authv1.UserBinding) :=
  if key.length > 0 then
    let data : GoMap authv1.UserBinding :=
      match index.get? key with
      | some data => data
      | none => []
    let data := data.set cr.Name cr
    index.set key data
  else index

/-- The block of `removeUserBinding` for one index: under a non-empty key that
has an inner map the name is deleted from it, and the key is deleted when the
inner map is left empty. -/
def removeIndex (index : GoMap (GoMap authv1.UserBinding)) (key : String)
    (cr : authv1.UserBinding) : GoMap (GoMap authv1.UserBinding) :=
  if key.length > 0 then
    match index.get? key with
    | some data =>
      let data := if (data.get? cr.Name).isSome then data.delete cr.Name else data
      if data.length = 0 then index.delete key
      else index.set key data
    | none => index
  else index

/-- Method `updateUserBinding`; the argument is `none` for a nil pointer. -/
def Resolver.updateUserBinding (r : Resolver) (cr : Option authv1.UserBinding) : Resolver :=
  match cr with
  | none => r
  | some cr =>
    { cache := updateIndex r.cache cr.UserEmailName cr
      gcache := updateIndex r.gcache cr.GroupName cr }

/-- Method `removeUserBinding`. -/
def Resolver.removeUserBinding (r : Resolver) (cr : Option authv1.UserBinding) : Resolver :=
  match cr with
  | none => r
  | some cr =>
    { cache := removeIndex r.cache cr.UserEmailName cr
      gcache := removeIndex r.gcache cr.GroupName cr }

/-- The caches built by `NewResolver` before any event. -/
def Resolver.empty : Resolver := { cache := [], gcache := [] }

end userbinding

/-! ## `pkg/auth/clusterrole/clusterrole.go`: the watch handlers of the role cache -/

namespace clusterrole

/-- Method `updateClusterRole`; the argument is `none` for a nil pointer. -/
def Resolver.updateClusterRole (r : Resolver) (cr : Option rbacv1.ClusterRole) : Resolver :=
  match cr with
  | none => r
  | some cr => { cache := r.cache.set cr.Name cr }

/-- Method `removeClusterRole`. -/
def Resolver.removeClusterRole (r : Resolver) (cr : Option rbacv1.ClusterRole) : Resolver :=
  match cr with
  | none => r
  | some cr => { cache := r.cache.delete cr.Name }

/-- The cache built by `NewResolver` before any event. -/
def Resolver.empty : Resolver := { cache := [] }

end clusterrole

/-! ## `pkg/auth/auth.go`: the resource mapping of `Authorize` -/

/-- The type `FilterOption`; a nil `ResourceMap` is the empty map. -/
structure FilterOption where
  ResourceMap : GoMap String

/-- The resource mapping of `Authorize`: with a non-nil option whose table
holds the key `Resource + "." + APIGroup`, resource and group are replaced by
the first piece of the value split at `"."` and by the other pieces joined
with `"."`.  The result is `none` when `items[0]` is out of range. -/
def remapResource (opt : Option FilterOption) (requestInfo : request.RequestInfo) :
    Option request.RequestInfo :=
  match opt with
  | none => some requestInfo
  | some opt =>
    if opt.ResourceMap.length > 0 then
      let gr := requestInfo.Resource ++ "." ++ requestInfo.APIGroup
      match opt.ResourceMap.get? gr with
      | some val =>
        let items := strings.Split val '.'
        match items[0]? with
        | none => none
        | some resource =>
          some
            { requestInfo with
              Resource := resource, APIGroup := strings.Join (items.drop 1) "." }
      | none => some requestInfo
    else some requestInfo

/-! ## Go standard library: `strings`, continued -/

namespace strings

/-- The character level of `strings.Contains`. -/
def containsChars (sub : List Char) : List Char → Bool
  | [] => sub.isEmpty
  | c :: cs => sub.isPrefixOf (c :: cs) || containsChars sub cs

/-- Go `strings.Contains(s, substr)`. -/
def Contains (s substr : String) : Bool := containsChars substr.data s.data

/-- The character level of `strings.ReplaceAll`: `skip` counts the characters
of a match that are still to be passed over. -/
def replaceChars (old new : List Char) : List Char → Nat → List Char
  | [], _ => []
  | _ :: cs, skip + 1 => replaceChars old new cs skip
  | c :: cs, 0 =>
    if old.isPrefixOf (c :: cs) then new ++ replaceChars old new cs (old.length - 1)
    else c :: replaceChars old new cs 0

/-- Go `strings.ReplaceAll(s, old, new)` for a non-empty `old`: the
occurrences of `old` are replaced from left to right without overlap. -/
def ReplaceAll (s old new : String) : String :=
  String.mk (replaceChars old.data new.data s.data 0)

end strings

/-! ## Go standard library: `unicode` and the case-insensitive functions of `strings` -/

namespace unicode

/-- The case tables of the Go package `unicode`, which lie outside the
repository and are taken as parameters.  `lower` is `unicode.ToLower` on one
rune.  `sameFold a b` is the test `strings.EqualFold` makes on two runes that
differ: whether simple case folding (`unicode.SimpleFold`) joins them. -/
structure CaseTables where
  lower : Char → Char
  sameFold : Char → Char → Bool

/-- The tables of the ASCII letters, with every other rune left alone. -/
def CaseTables.ascii : CaseTables :=
  { lower := Char.toLower
    sameFold := fun a b => decide (a.toLower = b.toLower) }

/-- Go `strings.ToLower(s)`: every rune mapped by `unicode.ToLower`. -/
def CaseTables.ToLower (t : CaseTables) (s : String) : String :=
  String.mk (s.data.map t.lower)

/-- The loop of `strings.EqualFold` over the runes of both strings: a pair of
runes passes when the runes are equal or joined by simple case folding, and
the strings must end together. -/
def CaseTables.equalFoldChars (t : CaseTables) : List Char → List Char → Bool
  | [], [] => true
  | a :: s, b :: u => (decide (a = b) || t.sameFold a b) && t.equalFoldChars s u
  | _, _ => false

/-- Go `strings.EqualFold(s, t)`. -/
def CaseTables.EqualFold (t : CaseTables) (s u : String) : Bool :=
  t.equalFoldChars s.data u.data

end unicode

/-! ## `pkg/dataselect/stdcomparabletypes.go`: label values -/

namespace dataselect

/-- A `ComparableValue` argument, held by the string that `ToString` renders
it as. -/
structure ComparableValue where
  rendered : String

/-- Function `ToString` on a comparable value. -/
def ToString (v : ComparableValue) : String := v.rendered

/-- The type `StdComparableLabel`. -/
abbrev StdComparableLabel := String

/-- The loop of `Contains` for an argument that holds `!:`. -/
def noneEqualFold (t : unicode.CaseTables) (other : String) : List String → Bool
  | [] => true
  | s :: split =>
    let replaced := strings.ReplaceAll other "!:" ":"
    if t.EqualFold s replaced then false
    else noneEqualFold t other split

/-- The loop of `Contains` for an argument without `!:`. -/
def someEqualLower (t : unicode.CaseTables) (other : String) : List String → Bool
  | [] => false
  | s :: split =>
    if t.ToLower s = t.ToLower other then true
    else someEqualLower t other split

/-- Method `StdComparableLabel.Contains`, under the case tables `t`. -/
def StdComparableLabel.Contains (t : unicode.CaseTables) (v : StdComparableLabel)
    (otherV : ComparableValue) : Bool :=
  let other := ToString otherV
  if strings.Contains other "!:" then
    let split := strings.Split v ','
    if split.length = 0 then true
    else noneEqualFold t other split
  else
    let split := strings.Split v ','
    if split.length = 0 then false
    else someEqualLower t other split

end dataselect

/-! ## `pkg/server/options/insecure_serving.go` -/

namespace options

/-- The fields of `InsecureServingOptions` that hold plain values. -/
structure InsecureServingOptions where
  BindPort : Int
  HealthCheck : Bool
  PathPrefix : String
deriving DecidableEq

/-- An error made by `fmt.Errorf`, held by its format and its argument. -/
structure FormatError where
  format : String
  arg : Int
deriving DecidableEq

/-- Method `InsecureServingOptions.Validate`; the receiver is `none` for a nil
pointer and the result is `none` for the nil slice. -/
def InsecureServingOptions.Validate (s : Option InsecureServingOptions) :
    Option (List FormatError) :=
  match s with
  | none => none
  | some s =>
    let errors : List FormatError := []
    let errors :=
      if s.BindPort < 0 ∨ s.BindPort > 65335 then
        errors ++
          [{ format :=
               "insecure port %v must be between 0 and 65335, inclusive. 0 for turning off insecure (HTTP) port"
             arg := s.BindPort }]
      else errors
    some errors

end options

/-! ## Properties named by the statements below -/

/-- A dimension `(k, v)` of a permission is satisfied by the request: the
request carries the value `v` for `k`, or `k` is the cluster dimension and the
request carries a cluster value that is a member of the comma-split of `v`. -/
def DimensionSatisfied (constraints : GoMap String) (kv : String × String) : Prop :=
  constraints.get? kv.1 = some kv.2 ∨
    (kv.1 = ResCluster ∧
      ∃ c, constraints.get? ResCluster = some c ∧ c ∈ strings.Split kv.2 ',')

/-- A rule applies to a resource: its API groups contain the group of the
resource or `"*"`, and its resources contain the resource name or `"*"`. -/
def RuleApplies (resource : schema.GroupResource) (rule : rbacv1.PolicyRule) : Prop :=
  (resource.Group ∈ rule.APIGroups ∨ "*" ∈ rule.APIGroups) ∧
    (resource.Resource ∈ rule.Resources ∨ "*" ∈ rule.Resources)

/-- The permissions a rule sends for one of its resources under an API group
that matched. -/
def resourcePermissions (userbinding : authv1.UserBinding) (resource : schema.GroupResource)
    (rule : rbacv1.PolicyRule) (res : String) : List Permission :=
  if resource.Resource ≠ res ∧ res ≠ "*" then []
  else if rule.ResourceNames.length > 0 then
    rule.ResourceNames.map (fun resourceName =>
      NewPermission userbinding resource rule.Verbs resourceName)
  else [NewPermission userbinding resource rule.Verbs ""]

/-- The permissions a rule sends for one of its API groups. -/
def groupPermissions (userbinding : authv1.UserBinding) (resource : schema.GroupResource)
    (rule : rbacv1.PolicyRule) (group : String) : List Permission :=
  if resource.Group ≠ group ∧ group ≠ "*" then []
  else rule.Resources.flatMap (resourcePermissions userbinding resource rule)

/-- A permission of a rule with resource names `foo`, held through a binding
of scope cluster with the tuples `c1` and `c2`, visited cluster first. -/
def clusterFirstPermission : Permission :=
  { RoleName := "viewer"
    Actions := ["get"]
    Constraints := [(ResCluster, "c1,c2"), (ResResourceName, "foo")]
    Resource := ⟨"", "pods"⟩ }

/-- A binding of scope cluster with the constraint tuples `c1` and `c2`. -/
def clusterScopedBinding : authv1.UserBinding :=
  { Name := "b1"
    Labels := [("auth.cpaas.io/user.email", "u1"), ("auth.cpaas.io/role.name", "viewer")]
    Spec :=
      { Subjects := []
        RoleRef := "viewer"
        Scope := "cluster"
        Constraint := [⟨"", "", "c1"⟩, ⟨"", "", "c2"⟩] } }

/-- A role of the family `viewer` whose one rule allows `get` on the pod
named `foo`. -/
def viewerRole : rbacv1.ClusterRole :=
  { Name := "viewer-pods"
    Labels := [("auth.cpaas.io/role.relative", "viewer")]
    Rules :=
      [{ Verbs := ["get"]
         APIGroups := [""]
         Resources := ["pods"]
         ResourceNames := ["foo"]
         NonResourceURLs := [] }] }

/-- A cache state: the user `u1` holds `clusterScopedBinding`, the role cache
holds `viewerRole`, and no user has groups. -/
def exampleManager : AuthManager :=
  { userBindingResolver :=
      { cache := [("u1", [("b1", clusterScopedBinding)])]
        gcache := [] }
    userResolver := { cache := [] }
    clusterRoleResolver := { cache := [("viewer-pods", viewerRole)] } }

/-- An entry of `rule.APIGroups` under which the rule sends permissions. -/
def groupMatches (resource : schema.GroupResource) (group : String) : Bool :=
  decide (resource.Group = group ∨ group = "*")

/-- An entry of `rule.Resources` under which the rule sends permissions. -/
def resourceMatches (resource : schema.GroupResource) (res : String) : Bool :=
  decide (resource.Resource = res ∨ res = "*")

/-- The permissions a rule sends for one matching pair of an API group entry
and a resource entry: one per resource name, or one without a name. -/
def permissionBlock (userbinding : authv1.UserBinding) (resource : schema.GroupResource)
    (rule : rbacv1.PolicyRule) : List Permission :=
  if rule.ResourceNames.length > 0 then
    rule.ResourceNames.map (fun resourceName =>
      NewPermission userbinding resource rule.Verbs resourceName)
  else [NewPermission userbinding resource rule.Verbs ""]

/-- A rule whose API groups name the group `apps` and the wildcard. -/
def appsAndWildcardRule : rbacv1.PolicyRule :=
  { Verbs := ["get"]
    APIGroups := ["apps", "*"]
    Resources := ["pods"]
    ResourceNames := []
    NonResourceURLs := [] }

/-- A cache state with the one role of the family `viewer` made of
`appsAndWildcardRule`. -/
def wildcardManager : AuthManager :=
  { userBindingResolver :=
      { cache := [("u1", [("b1", clusterScopedBinding)])]
        gcache := [] }
    userResolver := { cache := [] }
    clusterRoleResolver :=
      { cache :=
          [("viewer-apps",
            { Name := "viewer-apps"
              Labels := [("auth.cpaas.io/role.relative", "viewer")]
              Rules := [appsAndWildcardRule] })] } }

/-- Every user held in the subject cache has at least one group. -/
def user.Manager.EveryUserHasGroup (m : user.Manager) : Prop :=
  ∀ kv ∈ m.cache, kv.2.Spec.Groups ≠ []

/-- A cache state in which the user `u2` has the groups `dev` and `ops`, no
binding is indexed under `u2`, and the group index holds a binding of the
group `qa` only. -/
def groupedManager : AuthManager :=
  { userBindingResolver :=
      { cache := [("u1", [("b1", clusterScopedBinding)])]
        gcache := [("qa", [("b1", clusterScopedBinding)])] }
    userResolver := { cache := [("u2", ⟨"u2", ⟨["dev", "ops"]⟩⟩)] }
    clusterRoleResolver := { cache := [("viewer-pods", viewerRole)] } }

/-- No key of an index of the binding cache holds an empty inner map. -/
def userbinding.NoEmptyInner (index : GoMap (GoMap authv1.UserBinding)) : Prop :=
  ∀ kv ∈ index, kv.2 ≠ []

/-- The role cache holds one entry per key and every role under its own
name. -/
def clusterrole.Resolver.KeyedByName (r : clusterrole.Resolver) : Prop :=
  r.cache.WF ∧ ∀ kv ∈ r.cache, kv.1 = kv.2.Name

/-- The binding `b1` of the user `u1`. -/
def bindingOfU1 : authv1.UserBinding :=
  { Name := "b1"
    Labels := [("auth.cpaas.io/user.email", "u1"), ("auth.cpaas.io/role.name", "viewer")]
    Spec := { Subjects := [], RoleRef := "viewer", Scope := "project", Constraint := [] } }

/-- The binding `b1` after its user label is changed to `u2`. -/
def bindingMovedToU2 : authv1.UserBinding :=
  { Name := "b1"
    Labels := [("auth.cpaas.io/user.email", "u2"), ("auth.cpaas.io/role.name", "viewer")]
    Spec := { Subjects := [], RoleRef := "viewer", Scope := "project", Constraint := [] } }

/-- A binding that carries neither a user label nor a group label. -/
def orphanBinding : authv1.UserBinding :=
  { Name := "b9"
    Labels := [("auth.cpaas.io/role.name", "viewer")]
    Spec := { Subjects := [], RoleRef := "viewer", Scope := "project", Constraint := [] } }

/-- A cluster-scoped binding without constraint tuples and without project or
namespace label, carrying a cluster label. -/
def emptyClusterBinding : authv1.UserBinding :=
  { Name := "b2"
    Labels := [("auth.cpaas.io/user.email", "u1"), ("cpaas.io/cluster", "global")]
    Spec := { Subjects := [], RoleRef := "viewer", Scope := "cluster", Constraint := [] } }

/-- The characters of a string with every `!:` replaced by `:`, read from
left to right: the replacement `Contains` asks of `strings.ReplaceAll`. -/
def replaceBangColon : List Char → List Char
  | [] => []
  | [c] => [c]
  | a :: b :: rest =>
    if a = '!' ∧ b = ':' then ':' :: replaceBangColon rest
    else a :: replaceBangColon (b :: rest)

/-- The case key of a rune in `sampleTables`: `ſ` (long s) and `s`, `É`
and `é`, and the two cases of an ASCII letter share a key. -/
def sampleFoldKey (c : Char) : Char :=
  if c = 'ſ' then 's'
  else if c = 'É' then 'é'
  else c.toLower

/-- Case tables that agree with Unicode on the ASCII letters, on `É` and `é`
and on the long s: `É` has the lower case `é`, the long s is its own lower
case, and simple case folding joins `É` with `é` and the long s with `s`. -/
def sampleTables : unicode.CaseTables :=
  { lower := fun c => if c = 'É' then 'é' else c.toLower
    sameFold := fun a b => decide (sampleFoldKey a = sampleFoldKey b) }

/-! ## Basic facts -/

theorem String.length_pos_iff_ne_empty (s : String) : s.length > 0 ↔ s ≠ "" := by
  cases s with
  | mk data =>
    cases data with
    | nil => simp [String.length]
    | cons c cs =>
      simp [String.length]
      intro h
      exact absurd (congrArg String.data h) (by simp)

theorem StringInSlice_iff (a : String) (list : List String) :
    StringInSlice a list = true ↔ a ∈ list := by
  induction list with
  | nil => simp [StringInSlice]
  | cons b list ih =>
    by_cases h : b = a
    · simp [StringInSlice, h]
    · have h' : ¬ a = b := fun e => h e.symm
      simp [StringInSlice, h, h', ih]

theorem matchAllConstraintsLoop_of_all_equal (constraints : GoMap String)
    (entries : List (String × String))
    (h : ∀ kv ∈ entries, constraints.get? kv.1 = some kv.2) :
    matchAllConstraintsLoop constraints entries = true := by
  induction entries with
  | nil => rfl
  | cons kv rest ih =>
    obtain ⟨k, v⟩ := kv
    have hk : constraints.get? k = some v := h (k, v) (List.mem_cons_self _ _)
    have hrest := ih (fun kv hkv => h kv (List.mem_cons_of_mem _ hkv))
    simp [matchAllConstraintsLoop, GoMap.index, hk, hrest]

/-! ## Constraint matching -/

/-- C3: a permission whose constraint map is empty (or nil) is in constraint
for every request constraint map, the empty one included. -/
theorem IsInConstraint_of_no_constraints (p : Permission) (constraints : GoMap String)
    (h : p.Constraints = []) : p.IsInConstraint constraints = true := by
  simp [Permission.IsInConstraint, h]

theorem IsInConstraint_of_no_constraints_witness :
    (⟨"admin", ["*"], [], ⟨"apps", "pods"⟩⟩ : Permission).Constraints = [] ∧
      (⟨"admin", ["*"], [], ⟨"apps", "pods"⟩⟩ : Permission).IsInConstraint
          [(ResProject, "p1")] = true ∧
      (⟨"admin", ["*"], [], ⟨"apps", "pods"⟩⟩ : Permission).IsInConstraint [] = true :=
  ⟨rfl, IsInConstraint_of_no_constraints _ _ rfl, IsInConstraint_of_no_constraints _ _ rfl⟩

/-- C4: evaluation at the failing input.  The permission is derived by
`NewPermission` from a cluster-scoped binding and a rule restricted to the
resource name `foo`; with the cluster dimension visited first `IsInConstraint`
accepts a request for the resource name `bar`, a dimension the request does
not satisfy, and `Verify` then allows `get` on `bar`; the other visiting order
rejects the same request. -/
theorem IsInConstraint_cluster_first_ignores_resourceName :
    (NewPermission clusterScopedBinding ⟨"", "pods"⟩ ["get"] "foo").Constraints.Perm
        clusterFirstPermission.Constraints ∧
      clusterFirstPermission.IsInConstraint
          [(ResCluster, "c2"), (ResResourceName, "bar")] = true ∧
      ¬ DimensionSatisfied [(ResCluster, "c2"), (ResResourceName, "bar")]
          (ResResourceName, "foo") ∧
      (NewPermission clusterScopedBinding ⟨"", "pods"⟩ ["get"] "foo").IsInConstraint
          [(ResCluster, "c2"), (ResResourceName, "bar")] = false ∧
      exampleManager.Verify RangeOrder.reversed "u1" "get" ⟨"", "pods"⟩
          (some [(ResCluster, "c2"), (ResResourceName, "bar")]) = (true, none) ∧
      exampleManager.Verify RangeOrder.insertion "u1" "get" ⟨"", "pods"⟩
          (some [(ResCluster, "c2"), (ResResourceName, "bar")]) = (false, none) := by
  refine ⟨?_, by decide, ?_, by decide, by decide, by decide⟩
  · have h : (NewPermission clusterScopedBinding ⟨"", "pods"⟩ ["get"] "foo").Constraints =
        [(ResResourceName, "foo"), (ResCluster, "c1,c2")] := by decide
    rw [h]
    exact List.Perm.swap _ _ _
  · intro h
    rcases h with h | ⟨h, _⟩
    · revert h; decide
    · revert h; decide

/-- C5: when every dimension of the permission is present in the request with
an identical value, `IsInConstraint` returns true in every order `order` in
which the dimensions are visited. -/
theorem IsInConstraint_of_request_carries_all (p : Permission) (order : GoMap String)
    (constraints : GoMap String) (horder : order.Perm p.Constraints)
    (h : ∀ kv ∈ p.Constraints, constraints.get? kv.1 = some kv.2) :
    ({ p with Constraints := order } : Permission).IsInConstraint constraints = true := by
  have hall : ∀ kv ∈ order, constraints.get? kv.1 = some kv.2 :=
    fun kv hkv => h kv (horder.mem_iff.mp hkv)
  simp [Permission.IsInConstraint, Permission.matchAllConstraints,
    matchAllConstraintsLoop_of_all_equal constraints order hall]

theorem IsInConstraint_of_request_carries_all_witness :
    ({ clusterFirstPermission with
        Constraints := [(ResResourceName, "foo"), (ResCluster, "c1,c2")] } :
      Permission).IsInConstraint
        [(ResProject, "p1"), (ResCluster, "c1,c2"), (ResResourceName, "foo")] = true :=
  IsInConstraint_of_request_carries_all clusterFirstPermission
    [(ResResourceName, "foo"), (ResCluster, "c1,c2")]
    [(ResProject, "p1"), (ResCluster, "c1,c2"), (ResResourceName, "foo")]
    (List.Perm.swap _ _ _) (by decide)

/-! ## Splitting and joining -/

theorem strings.splitChars_ne_nil (sep : Char) (cs : List Char) :
    strings.splitChars sep cs ≠ [] := by
  cases cs with
  | nil => simp [strings.splitChars]
  | cons c cs =>
    by_cases h : c = sep
    · simp [strings.splitChars, h]
    · simp only [strings.splitChars, h, if_false]
      split <;> simp

theorem strings.splitChars_of_not_mem (sep : Char) (cs : List Char) (h : sep ∉ cs) :
    strings.splitChars sep cs = [cs] := by
  induction cs with
  | nil => rfl
  | cons c cs ih =>
    have hc : ¬ c = sep := fun e => h (by simp [e])
    have hcs : sep ∉ cs := fun e => h (List.mem_cons_of_mem _ e)
    simp [strings.splitChars, hc, ih hcs]

theorem strings.splitChars_append_sep (sep : Char) (cs rest : List Char) (h : sep ∉ cs) :
    strings.splitChars sep (cs ++ sep :: rest) = cs :: strings.splitChars sep rest := by
  induction cs with
  | nil => simp [strings.splitChars]
  | cons c cs ih =>
    have hc : ¬ c = sep := fun e => h (by simp [e])
    have hcs : sep ∉ cs := fun e => h (List.mem_cons_of_mem _ e)
    simp [strings.splitChars, hc, ih hcs]

theorem strings.Split_of_no_sep (sep : Char) (s : String) (h : sep ∉ s.data) :
    strings.Split s sep = [s] := by
  simp [strings.Split, strings.splitChars_of_not_mem sep s.data h]

theorem strings.Split_Join (sep : Char) (L : List String) (hL : L ≠ [])
    (h : ∀ n ∈ L, sep ∉ n.data) :
    strings.Split (strings.Join L (String.mk [sep])) sep = L := by
  induction L with
  | nil => exact absurd rfl hL
  | cons a L ih =>
    cases L with
    | nil =>
      simp only [strings.Join]
      exact strings.Split_of_no_sep sep a (h a (List.mem_cons_self _ _))
    | cons b rest =>
      have ha : sep ∉ a.data := h a (List.mem_cons_self _ _)
      have hrest := ih (by simp) (fun n hn => h n (List.mem_cons_of_mem _ hn))
      simp only [strings.Split] at hrest ⊢
      have hd : (a ++ String.mk [sep] ++ strings.Join (b :: rest) (String.mk [sep])).data =
          a.data ++ sep :: (strings.Join (b :: rest) (String.mk [sep])).data := by
        simp [String.data_append]
      simp only [strings.Join] at hrest ⊢
      rw [hd, strings.splitChars_append_sep sep _ _ ha, List.map_cons, hrest]


theorem IsInConstraint_only_cluster (p : Permission) (v : String) (constraints : GoMap String)
    (c : String) (hp : p.Constraints = [(ResCluster, v)])
    (hc : constraints.get? ResCluster = some c) :
    p.IsInConstraint constraints = true ↔ v = c ∨ c ∈ strings.Split v ',' := by
  by_cases hv : v = c
  · simp [Permission.IsInConstraint, Permission.matchAllConstraints, hp,
      matchAllConstraintsLoop, GoMap.index, hc, hv]
  · simp [Permission.IsInConstraint, Permission.matchAllConstraints, hp,
      matchAllConstraintsLoop, GoMap.index, hc, hv, StringInSlice_iff]

/-- C6, as amended: for a permission whose only constraint is the cluster
value `Join L ","` and a request whose cluster value `c` has no comma,
`IsInConstraint` returns true iff `c` is an element of the comma-split of the
joined value; that is membership in `L` whenever `L` is non-empty and no name
in `L` contains a comma. -/
theorem IsInConstraint_cluster_list (p : Permission) (L : List String)
    (constraints : GoMap String) (c : String)
    (hp : p.Constraints = [(ResCluster, strings.Join L ",")])
    (hc : constraints.get? ResCluster = some c) (hcomma : ',' ∉ c.data) :
    (p.IsInConstraint constraints = true ↔ c ∈ strings.Split (strings.Join L ",") ',') ∧
      (L ≠ [] → (∀ n ∈ L, ',' ∉ n.data) → (p.IsInConstraint constraints = true ↔ c ∈ L)) := by
  have hiff : p.IsInConstraint constraints = true ↔
      c ∈ strings.Split (strings.Join L ",") ',' := by
    rw [IsInConstraint_only_cluster p _ constraints c hp hc]
    constructor
    · rintro (h | h)
      · rw [h, strings.Split_of_no_sep ',' c hcomma]
        exact List.mem_singleton_self c
      · exact h
    · exact Or.inr
  refine ⟨hiff, fun hL hnames => ?_⟩
  have hsplit : strings.Split (strings.Join L ",") ',' = L :=
    strings.Split_Join ',' L hL hnames
  rw [hiff, hsplit]

theorem IsInConstraint_cluster_list_witness :
    ((⟨"viewer", ["get"], [(ResCluster, "c1,c2")], ⟨"", "pods"⟩⟩ : Permission).IsInConstraint
        [(ResCluster, "c2")] = true ↔ "c2" ∈ ["c1", "c2"]) ∧
      ((⟨"viewer", ["get"], [(ResCluster, "c1,c2")], ⟨"", "pods"⟩⟩ : Permission).IsInConstraint
        [(ResCluster, "c3")] = true ↔ "c3" ∈ ["c1", "c2"]) :=
  ⟨(IsInConstraint_cluster_list ⟨"viewer", ["get"], [(ResCluster, "c1,c2")], ⟨"", "pods"⟩⟩
      ["c1", "c2"] [(ResCluster, "c2")] "c2" (by decide) (by decide) (by decide)).2
      (by decide) (by decide),
    (IsInConstraint_cluster_list ⟨"viewer", ["get"], [(ResCluster, "c1,c2")], ⟨"", "pods"⟩⟩
      ["c1", "c2"] [(ResCluster, "c3")] "c3" (by decide) (by decide) (by decide)).2
      (by decide) (by decide)⟩

/-- C6 as stated fails for the empty list of cluster names: the joined value
is the empty string, and a request whose cluster value is the empty string is
accepted although the list has no element. -/
theorem IsInConstraint_cluster_list_empty_counterexample :
    ¬ ((⟨"viewer", ["get"], [(ResCluster, strings.Join [] ",")], ⟨"", "pods"⟩⟩ :
          Permission).IsInConstraint [(ResCluster, "")] = true ↔
        "" ∈ ([] : List String)) := by
  decide

/-! ## Aggregation -/

theorem insertActions_mem (actions : List String) (keys : List String) (a : String) :
    a ∈ actions.foldl (fun keys a => if a ∈ keys then keys else keys ++ [a]) keys ↔
      a ∈ keys ∨ a ∈ actions := by
  induction actions generalizing keys with
  | nil => simp
  | cons b actions ih =>
    rw [List.foldl_cons, ih]
    by_cases hb : b ∈ keys
    · simp only [hb, if_true, List.mem_cons]
      constructor
      · rintro (h | h)
        · exact Or.inl h
        · exact Or.inr (Or.inr h)
      · rintro (h | h | h)
        · exact Or.inl h
        · exact Or.inl (h ▸ hb)
        · exact Or.inr h
    · simp only [hb, if_false, List.mem_append, List.mem_singleton, List.mem_cons]
      tauto

theorem insertActions_nodup (actions : List String) (keys : List String)
    (h : keys.Nodup) :
    (actions.foldl (fun keys a => if a ∈ keys then keys else keys ++ [a]) keys).Nodup := by
  induction actions generalizing keys with
  | nil => simpa using h
  | cons b actions ih =>
    rw [List.foldl_cons]
    apply ih
    by_cases hb : b ∈ keys
    · simpa [hb] using h
    · simp only [hb, if_false]
      exact List.Nodup.append h (List.nodup_singleton b) (by simpa using hb)

theorem actionsMap_fold_mem (constraints : GoMap String) (permissions : List Permission)
    (keys : List String) (a : String) :
    a ∈ permissions.foldl
        (fun keys p =>
          if p.IsInConstraint constraints then
            p.Actions.foldl (fun keys a => if a ∈ keys then keys else keys ++ [a]) keys
          else keys)
        keys ↔
      a ∈ keys ∨ ∃ p ∈ permissions, p.IsInConstraint constraints = true ∧ a ∈ p.Actions := by
  induction permissions generalizing keys with
  | nil => simp
  | cons q permissions ih =>
    rw [List.foldl_cons, ih]
    by_cases hq : q.IsInConstraint constraints = true
    · simp only [hq, if_true, insertActions_mem, List.mem_cons, exists_eq_or_imp, true_and]
      tauto
    · simp only [hq, List.mem_cons, exists_eq_or_imp, false_and, false_or]
      simp

theorem actionsMap_fold_nodup (constraints : GoMap String) (permissions : List Permission)
    (keys : List String) (h : keys.Nodup) :
    (permissions.foldl
        (fun keys p =>
          if p.IsInConstraint constraints then
            p.Actions.foldl (fun keys a => if a ∈ keys then keys else keys ++ [a]) keys
          else keys)
        keys).Nodup := by
  induction permissions generalizing keys with
  | nil => simpa using h
  | cons q permissions ih =>
    rw [List.foldl_cons]
    apply ih
    by_cases hq : q.IsInConstraint constraints = true
    · simp only [hq, if_true]
      exact insertActions_nodup _ _ h
    · simpa [hq] using h

theorem actionsMap_mem (permissions : List Permission) (constraints : GoMap String)
    (a : String) :
    a ∈ actionsMap permissions constraints ↔
      ∃ p ∈ permissions, p.IsInConstraint constraints = true ∧ a ∈ p.Actions := by
  simp [actionsMap, actionsMap_fold_mem]

theorem actionsMap_nodup (permissions : List Permission) (constraints : GoMap String) :
    (actionsMap permissions constraints).Nodup :=
  actionsMap_fold_nodup constraints permissions [] List.nodup_nil

theorem collectActions_of_wildcard (visit actions : List String) (h : "*" ∈ visit) :
    collectActions visit actions = ["*"] := by
  induction visit generalizing actions with
  | nil => simp at h
  | cons k rest ih =>
    by_cases hk : k = "*"
    · simp [collectActions, hk]
    · have hrest : "*" ∈ rest := by
        rcases List.mem_cons.mp h with e | e
        · exact absurd e.symm hk
        · exact e
      simp [collectActions, hk, ih _ hrest]

theorem collectActions_of_no_wildcard (visit actions : List String) (h : "*" ∉ visit) :
    collectActions visit actions = actions ++ visit := by
  induction visit generalizing actions with
  | nil => simp [collectActions]
  | cons k rest ih =>
    have hk : ¬ k = "*" := fun e => h (by simp [e])
    have hrest : "*" ∉ rest := fun e => h (List.mem_cons_of_mem _ e)
    simp [collectActions, hk, ih _ hrest]

/-- C7: if some permission that is in constraint for the request has `"*"`
among its actions, `GetActionsForResourceFast` returns exactly `["*"]`,
whatever the other permissions are and in whatever order `keys` the action
map is visited. -/
theorem GetActionsForResourceFast_wildcard (keys : List String → List String)
    (hkeys : ∀ l, (keys l).Perm l) (permissions : List Permission)
    (constraints : GoMap String)
    (h : ∃ p ∈ permissions, p.IsInConstraint constraints = true ∧ "*" ∈ p.Actions) :
    GetActionsForResourceFast keys permissions constraints = ["*"] := by
  have hmem : "*" ∈ keys (actionsMap permissions constraints) :=
    (hkeys _).mem_iff.mpr ((actionsMap_mem permissions constraints "*").mpr h)
  exact collectActions_of_wildcard _ _ hmem

theorem GetActionsForResourceFast_wildcard_witness :
    GetActionsForResourceFast List.reverse
      [⟨"viewer", ["get", "list"], [], ⟨"", "pods"⟩⟩,
        ⟨"admin", ["create", "*", "get"], [(ResProject, "p1")], ⟨"", "pods"⟩⟩,
        ⟨"other", ["delete"], [(ResProject, "p2")], ⟨"", "pods"⟩⟩]
      [(ResProject, "p1")] = ["*"] :=
  GetActionsForResourceFast_wildcard List.reverse (fun l => List.reverse_perm l) _ _
    ⟨⟨"admin", ["create", "*", "get"], [(ResProject, "p1")], ⟨"", "pods"⟩⟩, by decide,
      by decide, by decide⟩

/-- C8: when no permission that is in constraint for the request carries
`"*"`, `GetActionsForResourceFast` returns a duplicate-free list whose elements
are exactly the actions of the permissions that are in constraint, in whatever
order `keys` the action map is visited; with no permission in constraint the
result is the empty list. -/
theorem GetActionsForResourceFast_union (keys : List String → List String)
    (hkeys : ∀ l, (keys l).Perm l) (permissions : List Permission)
    (constraints : GoMap String)
    (h : ∀ p ∈ permissions, p.IsInConstraint constraints = true → "*" ∉ p.Actions) :
    (GetActionsForResourceFast keys permissions constraints).Nodup ∧
      (∀ a, a ∈ GetActionsForResourceFast keys permissions constraints ↔
        ∃ p ∈ permissions, p.IsInConstraint constraints = true ∧ a ∈ p.Actions) ∧
      ((∀ p ∈ permissions, p.IsInConstraint constraints = false) →
        GetActionsForResourceFast keys permissions constraints = []) := by
  have hno : "*" ∉ keys (actionsMap permissions constraints) := by
    intro hmem
    obtain ⟨p, hp, hin, hstar⟩ :=
      (actionsMap_mem permissions constraints "*").mp ((hkeys _).mem_iff.mp hmem)
    exact h p hp hin hstar
  have heq : GetActionsForResourceFast keys permissions constraints =
      keys (actionsMap permissions constraints) := by
    simp [GetActionsForResourceFast, collectActions_of_no_wildcard _ _ hno]
  have hmem : ∀ a, a ∈ GetActionsForResourceFast keys permissions constraints ↔
      ∃ p ∈ permissions, p.IsInConstraint constraints = true ∧ a ∈ p.Actions := by
    intro a
    rw [heq, (hkeys _).mem_iff, actionsMap_mem]
  refine ⟨?_, hmem, fun hnone => ?_⟩
  · rw [heq]
    exact (hkeys _).nodup_iff.mpr (actionsMap_nodup permissions constraints)
  · apply List.eq_nil_iff_forall_not_mem.mpr
    intro a ha
    obtain ⟨p, hp, hin, _⟩ := (hmem a).mp ha
    rw [hnone p hp] at hin
    exact Bool.noConfusion hin

theorem GetActionsForResourceFast_union_witness :
    (GetActionsForResourceFast List.reverse
        [⟨"viewer", ["get", "list"], [], ⟨"", "pods"⟩⟩,
          ⟨"editor", ["get", "update"], [(ResProject, "p1")], ⟨"", "pods"⟩⟩,
          ⟨"other", ["*"], [(ResProject, "p2")], ⟨"", "pods"⟩⟩]
        [(ResProject, "p1")]).Nodup ∧
      GetActionsForResourceFast List.reverse
        [⟨"viewer", ["get", "list"], [], ⟨"", "pods"⟩⟩,
          ⟨"editor", ["get", "update"], [(ResProject, "p1")], ⟨"", "pods"⟩⟩,
          ⟨"other", ["*"], [(ResProject, "p2")], ⟨"", "pods"⟩⟩]
        [(ResProject, "p1")] = ["update", "list", "get"] :=
  ⟨(GetActionsForResourceFast_union List.reverse (fun l => List.reverse_perm l)
      [⟨"viewer", ["get", "list"], [], ⟨"", "pods"⟩⟩,
        ⟨"editor", ["get", "update"], [(ResProject, "p1")], ⟨"", "pods"⟩⟩,
        ⟨"other", ["*"], [(ResProject, "p2")], ⟨"", "pods"⟩⟩]
      [(ResProject, "p1")] (by decide)).1, by decide⟩

/-! ## Map assignment -/

theorem GoMap.get?_set {V : Type} (m : GoMap V) (k : String) (v : V) (k' : String) :
    (m.set k v).get? k' = if k = k' then some v else m.get? k' := by
  induction m with
  | nil => simp [GoMap.set, GoMap.get?]
  | cons kv m ih =>
    obtain ⟨k0, v0⟩ := kv
    by_cases h0 : k0 = k
    · subst h0
      by_cases h1 : k0 = k' <;> simp [GoMap.set, GoMap.get?, h1]
    · by_cases h1 : k0 = k'
      · subst h1
        have h2 : ¬ k = k0 := fun e => h0 e.symm
        simp [GoMap.set, GoMap.get?, h0, h2]
      · simp [GoMap.set, GoMap.get?, h0, h1, ih]

theorem GoMap.keys_set {V : Type} (m : GoMap V) (k : String) (v : V) :
    (m.set k v).map Prod.fst = if k ∈ m.map Prod.fst then m.map Prod.fst
      else m.map Prod.fst ++ [k] := by
  induction m with
  | nil => simp [GoMap.set]
  | cons kv m ih =>
    obtain ⟨k0, v0⟩ := kv
    by_cases h0 : k0 = k
    · subst h0
      simp [GoMap.set]
    · have h2 : ¬ k = k0 := fun e => h0 e.symm
      simp only [GoMap.set, h0, if_false, List.map_cons, ih, List.mem_cons, h2, false_or]
      split <;> simp

theorem GoMap.WF_set {V : Type} (m : GoMap V) (k : String) (v : V) (h : m.WF) :
    (m.set k v).WF := by
  unfold GoMap.WF at h ⊢
  rw [GoMap.keys_set]
  split
  · exact h
  · rename_i hk
    exact List.Nodup.append h (List.nodup_singleton k) (by simpa using hk)

theorem GoMap.get?_ite_set {V : Type} (c : Prop) [Decidable c] (m : GoMap V) (k : String)
    (v : V) (k' : String) :
    (if c then m.set k v else m).get? k' = if c ∧ k = k' then some v else m.get? k' := by
  by_cases hc : c <;> simp [hc, GoMap.get?_set]

theorem GoMap.WF_ite_set {V : Type} (c : Prop) [Decidable c] (m : GoMap V) (k : String)
    (v : V) (h : m.WF) : (if c then m.set k v else m).WF := by
  by_cases hc : c
  · simpa [hc] using GoMap.WF_set m k v h
  · simpa [hc] using h

theorem foldl_append_singleton {α β : Type} (f : α → β) (l : List α) (init : List β) :
    l.foldl (fun acc x => acc ++ [f x]) init = init ++ l.map f := by
  induction l generalizing init with
  | nil => simp
  | cons x l ih => simp [ih]

/-! ## Deriving a permission from a binding -/

/-- C9: the constraint map built by `NewPermission` holds the project label,
the namespace label and the resource name exactly when they are non-empty,
each with its value; its cluster entry is the comma-join, in tuple order, of
the `Cluster` fields of `Spec.Constraint` when the scope is `"cluster"`, and
otherwise the cluster label when that is non-empty; it holds no other key. -/
theorem NewPermission_constraints (userbinding : authv1.UserBinding)
    (resource : schema.GroupResource) (actions : List String) (resourceName : String) :
    ((NewPermission userbinding resource actions resourceName).Constraints.get? ResProject =
        if userbinding.ProjectName ≠ "" then some userbinding.ProjectName else none) ∧
      ((NewPermission userbinding resource actions resourceName).Constraints.get? ResNamespace =
        if userbinding.NamespaceName ≠ "" then some userbinding.NamespaceName else none) ∧
      ((NewPermission userbinding resource actions resourceName).Constraints.get?
          ResResourceName =
        if resourceName ≠ "" then some resourceName else none) ∧
      ((NewPermission userbinding resource actions resourceName).Constraints.get? ResCluster =
        if userbinding.Spec.Scope = "cluster" then
          some (strings.Join (userbinding.Spec.Constraint.map (fun c => c.Cluster)) ",")
        else if userbinding.NamespaceCluster ≠ "" then some userbinding.NamespaceCluster
        else none) ∧
      (∀ k, k ∉ [ResProject, ResNamespace, ResResourceName, ResCluster] →
        (NewPermission userbinding resource actions resourceName).Constraints.get? k = none) ∧
      (NewPermission userbinding resource actions resourceName).Constraints.WF := by
  have hPN : ResProject ≠ ResNamespace := by decide
  have hPR : ResProject ≠ ResResourceName := by decide
  have hPC : ResProject ≠ ResCluster := by decide
  have hNR : ResNamespace ≠ ResResourceName := by decide
  have hNC : ResNamespace ≠ ResCluster := by decide
  have hRC : ResResourceName ≠ ResCluster := by decide
  have hscope : authv1.UserBindingScopeCluster = "cluster" := rfl
  simp only [NewPermission, String.length_pos_iff_ne_empty, foldl_append_singleton,
    List.nil_append, hscope, GoMap.get?_ite_set]
  refine ⟨?_, ?_, ?_, ?_, ?_, ?_⟩
  · simp [GoMap.get?, hPN.symm, hPR.symm, hPC.symm]
  · simp [GoMap.get?, hPN, hNR.symm, hNC.symm]
  · simp [GoMap.get?, hPR, hNR, hRC.symm]
  · simp [GoMap.get?, hPC, hNC, hRC]
  · intro k hk
    simp only [List.mem_cons, List.mem_singleton, not_or, List.mem_nil_iff, or_false] at hk
    obtain ⟨h1, h2, h3, h4⟩ := hk
    have h1' : ¬ ResProject = k := fun e => h1 e.symm
    have h2' : ¬ ResNamespace = k := fun e => h2 e.symm
    have h3' : ¬ ResResourceName = k := fun e => h3 e.symm
    have h4' : ¬ ResCluster = k := fun e => h4 e.symm
    simp [GoMap.get?, h1', h2', h3', h4']
  · exact GoMap.WF_ite_set _ _ _ _ (GoMap.WF_ite_set _ _ _ _ (GoMap.WF_ite_set _ _ _ _
      (GoMap.WF_ite_set _ _ _ _ (GoMap.WF_ite_set _ _ _ _ List.nodup_nil))))

theorem NewPermission_constraints_witness :
    (NewPermission clusterScopedBinding ⟨"", "pods"⟩ ["get"] "foo").Constraints.get?
        ResCluster = some "c1,c2" ∧
      (NewPermission clusterScopedBinding ⟨"", "pods"⟩ ["get"] "foo").Constraints.get?
        ResProject = none := by
  have h := NewPermission_constraints clusterScopedBinding ⟨"", "pods"⟩ ["get"] "foo"
  refine ⟨?_, ?_⟩
  · rw [h.2.2.2.1]
    decide
  · rw [h.1]
    decide

/-! ## Expanding a binding -/

theorem foldl_eq_append_flatMap {α β : Type} (step : List β → α → List β) (f : α → List β)
    (hstep : ∀ acc x, step acc x = acc ++ f x) (l : List α) (init : List β) :
    l.foldl step init = init ++ l.flatMap f := by
  induction l generalizing init with
  | nil => simp
  | cons x l ih => simp [List.foldl_cons, hstep, ih, List.flatMap_cons, List.append_assoc]

theorem rulePermissions_eq (userbinding : authv1.UserBinding)
    (resource : schema.GroupResource) (rule : rbacv1.PolicyRule) :
    rulePermissions userbinding resource rule =
      rule.APIGroups.flatMap (groupPermissions userbinding resource rule) := by
  unfold rulePermissions
  rw [foldl_eq_append_flatMap _ (groupPermissions userbinding resource rule)]
  · simp
  · intro acc group
    unfold groupPermissions
    by_cases hg : resource.Group ≠ group ∧ group ≠ "*"
    · rw [if_pos hg, if_pos hg, List.append_nil]
    · rw [if_neg hg, if_neg hg]
      apply foldl_eq_append_flatMap
      intro acc res
      unfold resourcePermissions
      by_cases hr : resource.Resource ≠ res ∧ res ≠ "*"
      · rw [if_pos hr, if_pos hr, List.append_nil]
      · rw [if_neg hr, if_neg hr]
        by_cases hn : rule.ResourceNames.length > 0
        · rw [if_pos hn, if_pos hn]
          exact foldl_append_singleton _ _ _
        · rw [if_neg hn, if_neg hn]

theorem resourcePermissions_ne_nil_iff (userbinding : authv1.UserBinding)
    (resource : schema.GroupResource) (rule : rbacv1.PolicyRule) (res : String) :
    resourcePermissions userbinding resource rule res ≠ [] ↔
      (resource.Resource = res ∨ res = "*") := by
  unfold resourcePermissions
  by_cases hr : resource.Resource ≠ res ∧ res ≠ "*"
  · rw [if_pos hr]
    constructor
    · intro h
      exact absurd rfl h
    · rintro (e | e)
      · exact absurd e hr.1
      · exact absurd e hr.2
  · rw [if_neg hr]
    have hr' : resource.Resource = res ∨ res = "*" := by
      by_contra hcon
      exact hr ⟨fun e => hcon (Or.inl e), fun e => hcon (Or.inr e)⟩
    by_cases hn : rule.ResourceNames.length > 0
    · rw [if_pos hn]
      refine ⟨fun _ => hr', fun _ e => ?_⟩
      rw [List.map_eq_nil_iff] at e
      rw [e] at hn
      exact absurd hn (by decide)
    · rw [if_neg hn]
      exact ⟨fun _ => hr', fun _ e => List.noConfusion e⟩

theorem rulePermissions_ne_nil_iff (userbinding : authv1.UserBinding)
    (resource : schema.GroupResource) (rule : rbacv1.PolicyRule) :
    rulePermissions userbinding resource rule ≠ [] ↔ RuleApplies resource rule := by
  have hres : rule.Resources.flatMap (resourcePermissions userbinding resource rule) ≠ [] ↔
      (resource.Resource ∈ rule.Resources ∨ "*" ∈ rule.Resources) := by
    rw [ne_eq, List.flatMap_eq_nil_iff]
    push_neg
    constructor
    · rintro ⟨res, hmem, hne⟩
      rcases (resourcePermissions_ne_nil_iff userbinding resource rule res).mp hne with e | e
      · exact Or.inl (e ▸ hmem)
      · exact Or.inr (e ▸ hmem)
    · rintro (h | h)
      · exact ⟨_, h, (resourcePermissions_ne_nil_iff userbinding resource rule _).mpr
          (Or.inl rfl)⟩
      · exact ⟨_, h, (resourcePermissions_ne_nil_iff userbinding resource rule _).mpr
          (Or.inr rfl)⟩
  rw [rulePermissions_eq, ne_eq, List.flatMap_eq_nil_iff]
  push_neg
  unfold RuleApplies
  constructor
  · rintro ⟨group, hmem, hne⟩
    unfold groupPermissions at hne
    by_cases hg : resource.Group ≠ group ∧ group ≠ "*"
    · simp [hg] at hne
    · simp only [hg, if_false] at hne
      refine ⟨?_, hres.mp hne⟩
      by_cases e : resource.Group = group
      · exact Or.inl (e ▸ hmem)
      · have e' : group = "*" := by
          by_contra hcon
          exact hg ⟨e, hcon⟩
        exact Or.inr (e' ▸ hmem)
  · rintro ⟨hgroup, hresources⟩
    rcases hgroup with h | h
    · refine ⟨_, h, ?_⟩
      unfold groupPermissions
      simpa using hres.mpr hresources
    · refine ⟨_, h, ?_⟩
      unfold groupPermissions
      simpa using hres.mpr hresources

theorem GetClusterRoles_eq (r : clusterrole.Resolver) (roleRelativeName : String) :
    r.GetClusterRoles roleRelativeName =
      (r.cache.map Prod.snd).filter (fun role =>
        decide (role.Labels.get? "auth.cpaas.io/role.relative" = some roleRelativeName)) := by
  unfold clusterrole.Resolver.GetClusterRoles
  suffices h : ∀ (l : GoMap rbacv1.ClusterRole) (init : List rbacv1.ClusterRole),
      l.foldl
        (fun ret kv =>
          match kv.2.Labels.get? "auth.cpaas.io/role.relative" with
          | none => ret
          | some relativeName =>
            if relativeName ≠ roleRelativeName then ret else ret ++ [kv.2])
        init =
      init ++ (l.map Prod.snd).filter (fun role =>
        decide (role.Labels.get? "auth.cpaas.io/role.relative" = some roleRelativeName)) by
    simpa using h r.cache []
  intro l
  induction l with
  | nil => simp
  | cons kv l ih =>
    intro init
    rw [List.foldl_cons, ih]
    cases hlabel : kv.2.Labels.get? "auth.cpaas.io/role.relative" with
    | none => simp [hlabel]
    | some relativeName =>
      by_cases hname : relativeName = roleRelativeName
      · simp [hlabel, hname]
      · simp [hlabel, hname]

theorem GetUserBindingPermissions_eq (m : AuthManager) (userbinding : authv1.UserBinding)
    (resource : schema.GroupResource) :
    (m.GetUserBindingPermissions userbinding resource).1 =
      (m.clusterRoleResolver.GetClusterRoles userbinding.RoleName).flatMap (fun clusterRole =>
        clusterRole.Rules.flatMap (rulePermissions userbinding resource)) := by
  unfold AuthManager.GetUserBindingPermissions
  simp only
  rw [foldl_eq_append_flatMap _ (fun clusterRole =>
    clusterRole.Rules.flatMap (rulePermissions userbinding resource))]
  · simp
  · intro acc clusterRole
    unfold clusterRolePermissions
    rw [foldl_eq_append_flatMap _ (rulePermissions userbinding resource)]
    · simp
    · intro acc rule
      rfl

/-- C10: `GetUserBindingPermissions` returns, with a nil error, the
permissions of the rules of the roles in the family of the binding (the cached
roles whose `auth.cpaas.io/role.relative` label is the role name of the
binding), role by role and rule by rule; a rule contributes at least one
permission iff it applies, and the returned list is empty iff no rule of any
role in the family applies. -/
theorem GetUserBindingPermissions_rule_applies (m : AuthManager)
    (userbinding : authv1.UserBinding) (resource : schema.GroupResource) :
    (m.GetUserBindingPermissions userbinding resource).2 = none ∧
      (∀ clusterRole,
        clusterRole ∈ m.clusterRoleResolver.GetClusterRoles userbinding.RoleName ↔
          (∃ name, (name, clusterRole) ∈ m.clusterRoleResolver.cache) ∧
            clusterRole.Labels.get? "auth.cpaas.io/role.relative" =
              some userbinding.RoleName) ∧
      (m.GetUserBindingPermissions userbinding resource).1 =
        (m.clusterRoleResolver.GetClusterRoles userbinding.RoleName).flatMap
          (fun clusterRole =>
            clusterRole.Rules.flatMap (rulePermissions userbinding resource)) ∧
      (∀ rule, rulePermissions userbinding resource rule ≠ [] ↔ RuleApplies resource rule) ∧
      ((m.GetUserBindingPermissions userbinding resource).1 = [] ↔
        ∀ clusterRole ∈ m.clusterRoleResolver.GetClusterRoles userbinding.RoleName,
          ∀ rule ∈ clusterRole.Rules, ¬ RuleApplies resource rule) := by
  refine ⟨rfl, ?_, GetUserBindingPermissions_eq m userbinding resource,
    rulePermissions_ne_nil_iff userbinding resource, ?_⟩
  · intro clusterRole
    rw [GetClusterRoles_eq]
    simp [List.mem_filter]
  · rw [GetUserBindingPermissions_eq, List.flatMap_eq_nil_iff]
    constructor
    · intro h clusterRole hrole rule hrule happlies
      have hnil := List.flatMap_eq_nil_iff.mp (h clusterRole hrole) rule hrule
      exact (rulePermissions_ne_nil_iff userbinding resource rule).mpr happlies hnil
    · intro h clusterRole hrole
      rw [List.flatMap_eq_nil_iff]
      intro rule hrule
      by_contra hne
      exact h clusterRole hrole rule hrule
        ((rulePermissions_ne_nil_iff userbinding resource rule).mp hne)

theorem GetUserBindingPermissions_rule_applies_witness :
    (rulePermissions clusterScopedBinding ⟨"", "pods"⟩
        ⟨["get"], [""], ["pods"], ["foo"], []⟩ ≠ [] ↔
      RuleApplies ⟨"", "pods"⟩ ⟨["get"], [""], ["pods"], ["foo"], []⟩) ∧
      (exampleManager.GetUserBindingPermissions clusterScopedBinding ⟨"", "pods"⟩).1 =
        [NewPermission clusterScopedBinding ⟨"", "pods"⟩ ["get"] "foo"] :=
  ⟨(GetUserBindingPermissions_rule_applies exampleManager clusterScopedBinding
      ⟨"", "pods"⟩).2.2.2.1 ⟨["get"], [""], ["pods"], ["foo"], []⟩, by decide⟩

/-! ## Decision -/

theorem hasAction_iff (action : String) (allowed : List String) :
    hasAction action allowed = true ↔ "*" ∈ allowed ∨ action ∈ allowed := by
  induction allowed with
  | nil => simp [hasAction]
  | cons a allowed ih =>
    by_cases h1 : a = "*"
    · simp [hasAction, h1]
    · by_cases h2 : a = action
      · simp [hasAction, h1, h2]
      · have h1' : ¬ "*" = a := fun e => h1 e.symm
        have h2' : ¬ action = a := fun e => h2 e.symm
        simp [hasAction, h1, h2, h1', h2', ih]

theorem hasAction_GetActionsForResourceFast (keys : List String → List String)
    (hkeys : ∀ l, (keys l).Perm l) (action : String) (permissions : List Permission)
    (constraints : GoMap String) :
    hasAction action (GetActionsForResourceFast keys permissions constraints) = true ↔
      ∃ p ∈ permissions, p.IsInConstraint constraints = true ∧
        (action ∈ p.Actions ∨ "*" ∈ p.Actions) := by
  have hmem : ∀ a, a ∈ keys (actionsMap permissions constraints) ↔
      ∃ p ∈ permissions, p.IsInConstraint constraints = true ∧ a ∈ p.Actions :=
    fun a => by rw [(hkeys _).mem_iff, actionsMap_mem]
  unfold GetActionsForResourceFast
  by_cases hstar : "*" ∈ keys (actionsMap permissions constraints)
  · rw [collectActions_of_wildcard _ _ hstar]
    obtain ⟨p, hp, hin, hact⟩ := (hmem "*").mp hstar
    simp only [hasAction, if_true, true_iff]
    exact ⟨p, hp, hin, Or.inr hact⟩
  · rw [collectActions_of_no_wildcard _ _ hstar, List.nil_append, hasAction_iff, hmem, hmem]
    constructor
    · rintro (⟨p, hp, hin, ha⟩ | ⟨p, hp, hin, ha⟩)
      · exact ⟨p, hp, hin, Or.inr ha⟩
      · exact ⟨p, hp, hin, Or.inl ha⟩
    · rintro ⟨p, hp, hin, ha | ha⟩
      · exact Or.inr ⟨p, hp, hin, ha⟩
      · exact Or.inl ⟨p, hp, hin, ha⟩

theorem mem_arrange (dims : Nat → GoMap String → GoMap String) (permissions : List Permission)
    (start : Nat) (q : Permission) :
    q ∈ arrange dims start permissions ↔
      ∃ (i : Nat) (p : Permission), permissions[i]? = some p ∧
        q = { p with Constraints := dims (start + i) p.Constraints } := by
  induction permissions generalizing start with
  | nil => simp [arrange]
  | cons p0 rest ih =>
    simp only [arrange, List.mem_cons, ih]
    constructor
    · rintro (h | ⟨i, p, hi, hq⟩)
      · exact ⟨0, p0, by simp, by simpa using h⟩
      · exact ⟨i + 1, p, by simpa using hi, by rw [hq]; congr 2; omega⟩
    · rintro ⟨i, p, hi, hq⟩
      cases i with
      | zero =>
        simp only [List.getElem?_cons_zero, Option.some.injEq] at hi
        subst hi
        exact Or.inl (by simpa using hq)
      | succ i =>
        refine Or.inr ⟨i, p, by simpa using hi, ?_⟩
        rw [hq]; congr 2; omega

theorem GetActions_of_valid (m : AuthManager) (ord : RangeOrder) (user : String)
    (resource : schema.GroupResource) (constraints : Option (GoMap String)) (useCache : Bool)
    (hu : user ≠ "") (hr : resource.Resource ≠ "") :
    m.GetActions ord user resource constraints useCache =
      (some (GetActionsForResourceFast ord.keys
        (arrange ord.dims 0 (m.GetUserPermissions user resource).1) (constraints.getD [])),
        none) := by
  cases constraints <;>
    simp [AuthManager.GetActions, hu, hr, AuthManager.GetUserPermissions]

/-- C1: for a non-empty user and a resource with a non-empty resource name,
`Verify` returns `(b, nil)` where `b` is true iff some permission `p` of
`GetUserPermissions(user, resource)`, the `i`-th, is in constraint for the
request (with its dimensions visited in the order `ord.dims i` of the call)
and has the verb or `"*"` among its actions. -/
theorem Verify_iff_some_permission (m : AuthManager) (ord : RangeOrder) (user action : String)
    (resource : schema.GroupResource) (constraints : Option (GoMap String))
    (hu : user ≠ "") (hr : resource.Resource ≠ "") :
    ∃ b, m.Verify ord user action resource constraints = (b, none) ∧
      (b = true ↔
        ∃ (i : Nat) (p : Permission), (m.GetUserPermissions user resource).1[i]? = some p ∧
          ({ p with Constraints := ord.dims i p.Constraints } : Permission).IsInConstraint
              (constraints.getD []) = true ∧
          (action ∈ p.Actions ∨ "*" ∈ p.Actions)) := by
  refine ⟨hasAction action (GetActionsForResourceFast ord.keys
    (arrange ord.dims 0 (m.GetUserPermissions user resource).1) (constraints.getD [])), ?_, ?_⟩
  · unfold AuthManager.Verify
    rw [GetActions_of_valid m ord user resource constraints true hu hr]
    rfl
  · rw [hasAction_GetActionsForResourceFast ord.keys ord.keys_perm]
    constructor
    · rintro ⟨q, hq, hin, hact⟩
      obtain ⟨i, p, hi, rfl⟩ := (mem_arrange ord.dims _ 0 q).mp hq
      rw [Nat.zero_add] at hin
      exact ⟨i, p, hi, hin, hact⟩
    · rintro ⟨i, p, hi, hin, hact⟩
      refine ⟨{ p with Constraints := ord.dims i p.Constraints }, ?_, hin, hact⟩
      exact (mem_arrange ord.dims _ 0 _).mpr ⟨i, p, hi, by rw [Nat.zero_add]⟩

theorem Verify_iff_some_permission_witness :
    ∃ b, exampleManager.Verify RangeOrder.reversed "u1" "get" ⟨"", "pods"⟩
        (some [(ResCluster, "c2"), (ResResourceName, "foo")]) = (b, none) ∧
      (b = true ↔
        ∃ (i : Nat) (p : Permission),
          (exampleManager.GetUserPermissions "u1" ⟨"", "pods"⟩).1[i]? = some p ∧
          ({ p with Constraints := RangeOrder.reversed.dims i p.Constraints } :
              Permission).IsInConstraint
              ((some [(ResCluster, "c2"), (ResResourceName, "foo")] :
                Option (GoMap String)).getD []) = true ∧
          ("get" ∈ p.Actions ∨ "*" ∈ p.Actions)) :=
  Verify_iff_some_permission exampleManager RangeOrder.reversed "u1" "get" ⟨"", "pods"⟩
    (some [(ResCluster, "c2"), (ResResourceName, "foo")]) (by decide) (by decide)

/-- C2: `GetActions` and `Verify` return an error exactly when the user or
the resource name of the resource is the empty string; the error is then a
bad request, with the nil action slice and the result false.  For every other
input, whatever the resource group, the constraints (nil included) and the
caches hold, the error is nil. -/
theorem GetActions_Verify_error_iff (m : AuthManager) (ord : RangeOrder) (user action : String)
    (resource : schema.GroupResource) (constraints : Option (GoMap String))
    (useCache : Bool) :
    ((m.GetActions ord user resource constraints useCache).2 ≠ none ↔
        (user = "" ∨ resource.Resource = "")) ∧
      ((m.Verify ord user action resource constraints).2 ≠ none ↔
        (user = "" ∨ resource.Resource = "")) ∧
      ((user = "" ∨ resource.Resource = "") →
        ∃ reason,
          m.GetActions ord user resource constraints useCache =
              (none, some (StatusError.BadRequest reason)) ∧
            m.Verify ord user action resource constraints =
              (false, some (StatusError.BadRequest reason))) := by
  by_cases hu : user = ""
  · have hG : ∀ useCache, m.GetActions ord user resource constraints useCache =
        (none, some (StatusError.BadRequest "user is empty")) := by
      intro useCache
      simp [AuthManager.GetActions, hu]
    have hV : m.Verify ord user action resource constraints =
        (false, some (StatusError.BadRequest "user is empty")) := by
      unfold AuthManager.Verify
      rw [hG true]
    refine ⟨?_, ?_, fun _ => ⟨"user is empty", hG useCache, hV⟩⟩
    · rw [hG useCache]; simp [hu]
    · rw [hV]; simp [hu]
  · by_cases hr : resource.Resource = ""
    · have hG : ∀ useCache, m.GetActions ord user resource constraints useCache =
          (none, some (StatusError.BadRequest "resource is empty")) := by
        intro useCache
        simp [AuthManager.GetActions, hu, hr]
      have hV : m.Verify ord user action resource constraints =
          (false, some (StatusError.BadRequest "resource is empty")) := by
        unfold AuthManager.Verify
        rw [hG true]
      refine ⟨?_, ?_, fun _ => ⟨"resource is empty", hG useCache, hV⟩⟩
      · rw [hG useCache]; simp [hr]
      · rw [hV]; simp [hr]
    · have hV : (m.Verify ord user action resource constraints).2 = none := by
        unfold AuthManager.Verify
        rw [GetActions_of_valid m ord user resource constraints true hu hr]
      refine ⟨?_, ?_, fun h => ?_⟩
      · rw [GetActions_of_valid m ord user resource constraints useCache hu hr]
        simp [hu, hr]
      · rw [hV]; simp [hu, hr]
      · rcases h with h | h
        · exact absurd h hu
        · exact absurd h hr

theorem GetActions_Verify_error_iff_witness :
    ((exampleManager.Verify RangeOrder.insertion "nobody" "get" ⟨"", "pods"⟩ none).2 ≠ none ↔
        ("nobody" = "" ∨ (⟨"", "pods"⟩ : schema.GroupResource).Resource = "")) ∧
      exampleManager.Verify RangeOrder.insertion "nobody" "get" ⟨"", "pods"⟩ none =
        (false, none) ∧
      exampleManager.Verify RangeOrder.insertion "" "get" ⟨"", "pods"⟩ none =
        (false, some (StatusError.BadRequest "user is empty")) ∧
      exampleManager.GetActions RangeOrder.insertion "u1" ⟨"apps", ""⟩ none true =
        (none, some (StatusError.BadRequest "resource is empty")) :=
  ⟨(GetActions_Verify_error_iff exampleManager RangeOrder.insertion "nobody" "get"
      ⟨"", "pods"⟩ none true).2.1, by decide, by decide, by decide⟩

/-! ## Counting the permissions of a rule -/

theorem flatMap_ite_eq_replicate {α β : Type} (P : α → Bool) (B : List β) (l : List α) :
    l.flatMap (fun x => if P x = true then B else []) =
      (List.replicate (l.countP P) B).flatten := by
  induction l with
  | nil => simp
  | cons x l ih =>
    rw [List.flatMap_cons, ih, List.countP_cons]
    by_cases hx : P x = true
    · simp [hx, List.replicate_succ]
    · simp [hx]

theorem flatten_replicate_flatten {β : Type} (m n : Nat) (B : List β) :
    (List.replicate m (List.replicate n B).flatten).flatten =
      (List.replicate (m * n) B).flatten := by
  induction m with
  | zero => simp
  | succ m ih =>
    rw [List.replicate_succ, List.flatten_cons, ih, Nat.succ_mul, Nat.add_comm,
      List.replicate_add, List.flatten_append]

theorem resourcePermissions_eq_ite (userbinding : authv1.UserBinding)
    (resource : schema.GroupResource) (rule : rbacv1.PolicyRule) (res : String) :
    resourcePermissions userbinding resource rule res =
      if resourceMatches resource res = true then permissionBlock userbinding resource rule
      else [] := by
  unfold resourcePermissions resourceMatches permissionBlock
  by_cases h1 : resource.Resource = res
  · simp [h1]
  · by_cases h2 : res = "*"
    · simp [h2]
    · simp [h1, h2]

theorem groupPermissions_eq_ite (userbinding : authv1.UserBinding)
    (resource : schema.GroupResource) (rule : rbacv1.PolicyRule) (group : String) :
    groupPermissions userbinding resource rule group =
      if groupMatches resource group = true then
        (List.replicate (rule.Resources.countP (resourceMatches resource))
          (permissionBlock userbinding resource rule)).flatten
      else [] := by
  have hres : rule.Resources.flatMap (resourcePermissions userbinding resource rule) =
      (List.replicate (rule.Resources.countP (resourceMatches resource))
        (permissionBlock userbinding resource rule)).flatten := by
    rw [← flatMap_ite_eq_replicate]
    congr 1
    funext res
    exact resourcePermissions_eq_ite userbinding resource rule res
  unfold groupPermissions groupMatches
  rw [hres]
  by_cases h1 : resource.Group = group
  · simp [h1]
  · by_cases h2 : group = "*"
    · simp [h2]
    · simp [h1, h2]

theorem rulePermissions_eq_replicate (userbinding : authv1.UserBinding)
    (resource : schema.GroupResource) (rule : rbacv1.PolicyRule) :
    rulePermissions userbinding resource rule =
      (List.replicate
        (rule.APIGroups.countP (groupMatches resource) *
          rule.Resources.countP (resourceMatches resource))
        (permissionBlock userbinding resource rule)).flatten := by
  rw [rulePermissions_eq, ← flatten_replicate_flatten, ← flatMap_ite_eq_replicate]
  congr 1
  funext group
  exact groupPermissions_eq_ite userbinding resource rule group

theorem length_flatten_replicate {β : Type} (n : Nat) (B : List β) :
    (List.replicate n B).flatten.length = n * B.length := by
  induction n with
  | zero => simp
  | succ n ih =>
    rw [List.replicate_succ, List.flatten_cons, List.length_append, ih, Nat.succ_mul,
      Nat.add_comm]

/-- C11, as amended: a rule sends, once for every pair of an `APIGroups` entry
that matches and a `Resources` entry that matches, one permission without a
name when it has no resource names and one permission per resource name (each
constrained by that name) when it has; so it contributes 1 or
`len(ResourceNames)` permissions times the number of matching pairs, and
exactly 1 or `len(ResourceNames)` when one entry of each list matches. -/
theorem rulePermissions_count (userbinding : authv1.UserBinding)
    (resource : schema.GroupResource) (rule : rbacv1.PolicyRule) :
    rulePermissions userbinding resource rule =
        (List.replicate
          (rule.APIGroups.countP (groupMatches resource) *
            rule.Resources.countP (resourceMatches resource))
          (permissionBlock userbinding resource rule)).flatten ∧
      (rulePermissions userbinding resource rule).length =
        rule.APIGroups.countP (groupMatches resource) *
          rule.Resources.countP (resourceMatches resource) *
          (if rule.ResourceNames = [] then 1 else rule.ResourceNames.length) ∧
      (rule.ResourceNames = [] →
        permissionBlock userbinding resource rule =
          [NewPermission userbinding resource rule.Verbs ""]) ∧
      (rule.ResourceNames ≠ [] →
        permissionBlock userbinding resource rule =
          rule.ResourceNames.map (fun resourceName =>
            NewPermission userbinding resource rule.Verbs resourceName)) ∧
      (rule.APIGroups.countP (groupMatches resource) = 1 →
        rule.Resources.countP (resourceMatches resource) = 1 →
        (rulePermissions userbinding resource rule).length =
          if rule.ResourceNames = [] then 1 else rule.ResourceNames.length) := by
  have hblock : (permissionBlock userbinding resource rule).length =
      if rule.ResourceNames = [] then 1 else rule.ResourceNames.length := by
    unfold permissionBlock
    by_cases hn : rule.ResourceNames = []
    · simp [hn]
    · have hpos : rule.ResourceNames.length > 0 := List.length_pos.mpr hn
      simp [hn, hpos]
  have hlen : (rulePermissions userbinding resource rule).length =
      rule.APIGroups.countP (groupMatches resource) *
        rule.Resources.countP (resourceMatches resource) *
        (if rule.ResourceNames = [] then 1 else rule.ResourceNames.length) := by
    rw [rulePermissions_eq_replicate, length_flatten_replicate, hblock]
  refine ⟨rulePermissions_eq_replicate userbinding resource rule, hlen, ?_, ?_, ?_⟩
  · intro hn
    simp [permissionBlock, hn]
  · intro hn
    have hpos : rule.ResourceNames.length > 0 := List.length_pos.mpr hn
    simp [permissionBlock, hpos]
  · intro hg hr
    rw [hlen, hg, hr]
    simp

theorem rulePermissions_count_witness :
    (rulePermissions clusterScopedBinding ⟨"", "pods"⟩
        ⟨["get"], ["", "batch"], ["pods"], ["foo", "bar"], []⟩).length = 2 := by
  have h := (rulePermissions_count clusterScopedBinding ⟨"", "pods"⟩
    ⟨["get"], ["", "batch"], ["pods"], ["foo", "bar"], []⟩).2.2.2.2 (by decide) (by decide)
  rw [h]
  decide

/-- C11 as stated fails for a rule whose API groups hold both the group of
the resource and `"*"`: the rule applies and has no resource names, yet it
sends two permissions, and `GetUserBindingPermissions` returns both. -/
theorem rulePermissions_two_for_wildcard_counterexample :
    RuleApplies ⟨"apps", "pods"⟩ appsAndWildcardRule ∧
      appsAndWildcardRule.ResourceNames = [] ∧
      (rulePermissions clusterScopedBinding ⟨"apps", "pods"⟩ appsAndWildcardRule).length = 2 ∧
      (wildcardManager.GetUserBindingPermissions clusterScopedBinding
        ⟨"apps", "pods"⟩).1.length = 2 := by
  refine ⟨?_, rfl, by decide, by decide⟩
  unfold RuleApplies
  exact ⟨Or.inl (by decide), Or.inl (by decide)⟩

/-! ## Subjects without bindings -/

theorem GetUserBindingsByGroups_fold_of_absent (r : userbinding.Resolver)
    (groups : List String) (init : List authv1.UserBinding)
    (h : ∀ g ∈ groups, r.gcache.get? g = none) :
    groups.foldl
        (fun ret group =>
          match r.gcache.get? group with
          | none => ret
          | some data => data.foldl (fun ret kv => ret ++ [kv.2]) ret)
        init = init := by
  induction groups generalizing init with
  | nil => rfl
  | cons g groups ih =>
    rw [List.foldl_cons, h g (List.mem_cons_self _ _)]
    exact ih init (fun g' hg' => h g' (List.mem_cons_of_mem _ hg'))

theorem GetUserPermissions_of_no_bindings (m : AuthManager) (userName : String)
    (resource : schema.GroupResource)
    (hdirect : m.userBindingResolver.cache.get? userName = none)
    (hgroups : m.userResolver.cache.get? userName = none ∨
      ∃ u, m.userResolver.cache.get? userName = some u ∧
        ∀ g ∈ u.Spec.Groups, m.userBindingResolver.gcache.get? g = none) :
    m.GetUserPermissions userName resource = ([], none) := by
  have hbindings : m.userBindingResolver.GetUserBindings userName = [] := by
    simp [userbinding.Resolver.GetUserBindings, hdirect]
  unfold AuthManager.GetUserPermissions
  rw [hbindings]
  rcases hgroups with habsent | ⟨u, hpresent, hnone⟩
  · simp [user.Manager.Get, habsent]
  · have hby : m.userBindingResolver.GetUserBindingsByGroups u.Spec.Groups = [] :=
      GetUserBindingsByGroups_fold_of_absent _ _ [] hnone
    simp [user.Manager.Get, hpresent, hby]

/-- C12: when the subject index has no entry for a non-empty user, and the
user is absent from the subject cache or none of the groups of the user has an
entry in the group index, `GetActions` returns the empty action list and a nil
error for every resource with a non-empty resource name and every constraint
map, and `Verify` returns false for every verb. -/
theorem GetActions_of_no_bindings (m : AuthManager) (ord : RangeOrder) (userName : String)
    (resource : schema.GroupResource) (constraints : Option (GoMap String))
    (useCache : Bool) (hu : userName ≠ "") (hr : resource.Resource ≠ "")
    (hdirect : m.userBindingResolver.cache.get? userName = none)
    (hgroups : m.userResolver.cache.get? userName = none ∨
      ∃ u, m.userResolver.cache.get? userName = some u ∧
        ∀ g ∈ u.Spec.Groups, m.userBindingResolver.gcache.get? g = none) :
    m.GetActions ord userName resource constraints useCache = (some [], none) ∧
      ∀ action, m.Verify ord userName action resource constraints = (false, none) := by
  have hperms := GetUserPermissions_of_no_bindings m userName resource hdirect hgroups
  have hactions : ∀ useCache, m.GetActions ord userName resource constraints useCache =
      (some [], none) := by
    intro useCache
    rw [GetActions_of_valid m ord userName resource constraints useCache hu hr, hperms]
    simp [arrange, GetActionsForResourceFast, actionsMap, collectActions]
    have hnil := (ord.keys_perm []).eq_nil
    rw [hnil]
    rfl
  refine ⟨hactions useCache, fun action => ?_⟩
  unfold AuthManager.Verify
  rw [hactions true]
  rfl

theorem GetActions_of_no_bindings_witness :
    groupedManager.GetActions RangeOrder.reversed "u2" ⟨"apps", "pods"⟩
        (some [(ResProject, "p1")]) true = (some [], none) ∧
      ∀ action, groupedManager.Verify RangeOrder.reversed "u2" action ⟨"apps", "pods"⟩
        (some [(ResProject, "p1")]) = (false, none) :=
  GetActions_of_no_bindings groupedManager RangeOrder.reversed "u2" ⟨"apps", "pods"⟩
    (some [(ResProject, "p1")]) true (by decide) (by decide) (by decide)
    (Or.inr ⟨⟨"u2", ⟨["dev", "ops"]⟩⟩, by decide, by decide⟩)

/-! ## Splitting a path into segments -/

theorem dropWhile_eq_self_of_head {α : Type} (p : α → Bool) (l : List α)
    (h : ∀ a, l.head? = some a → p a = false) : l.dropWhile p = l := by
  cases l with
  | nil => rfl
  | cons a l => simp [List.dropWhile, h a rfl]

theorem rdropWhile_eq_self_of_getLast {α : Type} (p : α → Bool) (l : List α)
    (h : ∀ a, l.getLast? = some a → p a = false) : l.rdropWhile p = l := by
  rw [List.rdropWhile_eq_self_iff]
  intro hl
  rw [h _ (List.getLast?_eq_getLast l hl)]
  exact Bool.false_ne_true

theorem strings.Join_data_cons_cons (a b : String) (rest : List String) (sep : Char) :
    (strings.Join (a :: b :: rest) (String.mk [sep])).data =
      a.data ++ sep :: (strings.Join (b :: rest) (String.mk [sep])).data := by
  simp [strings.Join, String.data_append]

theorem strings.Join_data_ends (sep : Char) (segs : List String) (hne : segs ≠ [])
    (h : ∀ s ∈ segs, s ≠ "" ∧ sep ∉ s.data) :
    (strings.Join segs (String.mk [sep])).data ≠ [] ∧
      (∀ c, (strings.Join segs (String.mk [sep])).data.head? = some c → c ≠ sep) ∧
      (∀ c, (strings.Join segs (String.mk [sep])).data.getLast? = some c → c ≠ sep) := by
  induction segs with
  | nil => exact absurd rfl hne
  | cons a segs ih =>
    obtain ⟨hane, hasep⟩ := h a (List.mem_cons_self _ _)
    have hadata : a.data ≠ [] := by
      intro e
      apply hane
      cases a
      simp_all
    cases segs with
    | nil =>
      simp only [strings.Join]
      refine ⟨hadata, fun c hc => ?_, fun c hc => ?_⟩
      · exact fun e => hasep (e ▸ List.mem_of_mem_head? hc)
      · exact fun e => hasep (e ▸ List.mem_of_mem_getLast? hc)
    | cons b rest =>
      obtain ⟨hne', _, hlast⟩ := ih (by simp) (fun s hs => h s (List.mem_cons_of_mem _ hs))
      rw [strings.Join_data_cons_cons]
      refine ⟨by simp, fun c hc => ?_, fun c hc => ?_⟩
      · rw [List.head?_append_of_ne_nil _ hadata] at hc
        exact fun e => hasep (e ▸ List.mem_of_mem_head? hc)
      · rw [List.getLast?_append_of_ne_nil _ (by simp)] at hc
        obtain ⟨y, ys, e⟩ := List.exists_cons_of_ne_nil hne'
        rw [e, List.getLast?_cons_cons, ← e] at hc
        exact hlast c hc

theorem splitPath_of_segments (segs : List String) (hne : segs ≠ [])
    (h : ∀ s ∈ segs, s ≠ "" ∧ '/' ∉ s.data) :
    request.splitPath ("/" ++ strings.Join segs "/") = segs := by
  obtain ⟨hdata, hhead, hlast⟩ := strings.Join_data_ends '/' segs hne h
  have hjoin : strings.Join segs "/" = strings.Join segs (String.mk ['/']) := rfl
  have htrim : strings.Trim ("/" ++ strings.Join segs "/") '/' = strings.Join segs "/" := by
    rw [hjoin]
    unfold strings.Trim
    have hd : ("/" ++ strings.Join segs (String.mk ['/'])).data =
        '/' :: (strings.Join segs (String.mk ['/'])).data := by
      simp [String.data_append]
    rw [hd]
    have h1 : List.dropWhile (fun c => decide (c = '/'))
        ('/' :: (strings.Join segs (String.mk ['/'])).data) =
        (strings.Join segs (String.mk ['/'])).data := by
      rw [List.dropWhile_cons_of_pos (by simp)]
      exact dropWhile_eq_self_of_head _ _ (fun c hc => by simpa using hhead c hc)
    rw [h1, rdropWhile_eq_self_of_getLast _ _ (fun c hc => by simpa using hlast c hc)]
  unfold request.splitPath
  simp only [htrim]
  have hnonempty : strings.Join segs "/" ≠ "" := by
    intro e
    apply hdata
    rw [← hjoin, e]
  rw [if_neg hnonempty, hjoin]
  exact strings.Split_Join '/' segs hne (fun s hs => (h s hs).2)

theorem String.length_eq_zero_iff_eq_empty (s : String) : s.length = 0 ↔ s = "" := by
  have h := String.length_pos_iff_ne_empty s
  constructor
  · intro h0
    by_contra hne
    have := h.mpr hne
    omega
  · intro e
    rw [e]
    rfl

/-! ## Locating a request -/

/-- C13, as amended: for every configured prefix `x` that is itself a
non-empty slash-free segment and all non-empty slash-free segments `g`, `v`,
`p`, `c`, `n`, `res`, `name`, a GET request to
`/x/g/v/projects/p/clusters/c/namespaces/n/res/name` is located as group `g`,
version `v`, project `p`, cluster `c`, namespace `n`, resource `res`, name
`name`, verb `get` and level `namespace`. -/
theorem NewRequestInfo_namespaced (r : request.RequestInfoFactory)
    (x g v p c n res name : String) (hx : x ∈ r.APIPrefixes)
    (hseg : ∀ s ∈ [x, g, v, p, c, n, res, name], s ≠ "" ∧ '/' ∉ s.data) :
    r.NewRequestInfo
        ⟨"GET", ⟨"/" ++ strings.Join
          [x, g, v, "projects", p, "clusters", c, "namespaces", n, res, name] "/"⟩⟩ =
      some
        ({ Path := "/" ++ strings.Join
              [x, g, v, "projects", p, "clusters", c, "namespaces", n, res, name] "/"
           Verb := "get"
           APIPrefix := x
           APIGroup := g
           APIVersion := v
           Namespace := n
           Cluster := c
           Project := p
           Level := "namespace"
           Resource := res
           Subresource := ""
           Name := name
           Parts := [res, name] }, none) := by
  have hsplit : request.splitPath ("/" ++ strings.Join
      [x, g, v, "projects", p, "clusters", c, "namespaces", n, res, name] "/") =
      [x, g, v, "projects", p, "clusters", c, "namespaces", n, res, name] := by
    apply splitPath_of_segments _ (by simp)
    intro s hs
    simp only [List.mem_cons, List.mem_singleton, List.mem_nil_iff, or_false] at hs hseg
    rcases hs with e | e | e | e | e | e | e | e | e | e | e
    all_goals first
      | (subst e; exact ⟨by decide, by decide⟩)
      | (rw [e]; exact hseg _ (by simp))
  have hname : ¬ name.length = 0 := by
    rw [String.length_eq_zero_iff_eq_empty]
    exact (hseg name (by simp)).1
  simp [request.RequestInfoFactory.NewRequestInfo, hsplit, hx, request.locateScope,
    request.fillParts, request.adjustVerb, request.methodVerb, hname]

theorem NewRequestInfo_namespaced_witness :
    apiFactory.NewRequestInfo
        ⟨"GET", ⟨"/" ++ strings.Join
          ["api", "apps", "v1", "projects", "p1", "clusters", "c1", "namespaces", "ns1",
            "pods", "foo"] "/"⟩⟩ =
      some
        ({ Path := "/" ++ strings.Join
              ["api", "apps", "v1", "projects", "p1", "clusters", "c1", "namespaces", "ns1",
                "pods", "foo"] "/"
           Verb := "get"
           APIPrefix := "api"
           APIGroup := "apps"
           APIVersion := "v1"
           Namespace := "ns1"
           Cluster := "c1"
           Project := "p1"
           Level := "namespace"
           Resource := "pods"
           Subresource := ""
           Name := "foo"
           Parts := ["pods", "foo"] }, none) ∧
      "/" ++ strings.Join
          ["api", "apps", "v1", "projects", "p1", "clusters", "c1", "namespaces", "ns1",
            "pods", "foo"] "/" =
        "/api/apps/v1/projects/p1/clusters/c1/namespaces/ns1/pods/foo" :=
  ⟨NewRequestInfo_namespaced apiFactory "api" "apps" "v1" "p1" "c1" "ns1" "pods" "foo"
    (by decide) (by decide), by decide⟩

/-- C13 as stated fails for the configured prefix `""` of
`AuthOptions.ApplyToServer`: the path `//apps/v1/projects/...` loses its
leading slashes, its first segment `apps` is no configured prefix, and the
request is returned as a non-resource request without group, project,
cluster, namespace, resource or name. -/
theorem NewRequestInfo_namespaced_empty_prefix_counterexample :
    "" ∈ configuredFactory.APIPrefixes ∧
      "/" ++ strings.Join
          ["", "apps", "v1", "projects", "p1", "clusters", "c1", "namespaces", "ns1",
            "pods", "foo"] "/" =
        "//apps/v1/projects/p1/clusters/c1/namespaces/ns1/pods/foo" ∧
      configuredFactory.NewRequestInfo
          ⟨"GET", ⟨"//apps/v1/projects/p1/clusters/c1/namespaces/ns1/pods/foo"⟩⟩ =
        some
          ({ Path := "//apps/v1/projects/p1/clusters/c1/namespaces/ns1/pods/foo"
             Verb := "get"
             APIPrefix := ""
             APIGroup := ""
             APIVersion := ""
             Namespace := ""
             Cluster := ""
             Project := ""
             Level := ""
             Resource := ""
             Subresource := ""
             Name := ""
             Parts := [] }, none) := by
  refine ⟨by decide, by decide, by decide⟩

/-- C14, as amended: for every configured prefix `x` that is itself a
non-empty slash-free segment and all non-empty slash-free segments `g`, `v`,
`c`, `res`, a request to `/x/g/v/clusters/c/res` is located, for every method,
with cluster `c`, resource `res`, empty name, empty project and namespace and
level `cluster`; its verb is `list` for GET and HEAD, `deletecollection` for
DELETE and the verb of the method otherwise. -/
theorem NewRequestInfo_cluster_scoped (r : request.RequestInfoFactory) (method : String)
    (x g v c res : String) (hx : x ∈ r.APIPrefixes)
    (hseg : ∀ s ∈ [x, g, v, c, res], s ≠ "" ∧ '/' ∉ s.data) :
    r.NewRequestInfo
        ⟨method, ⟨"/" ++ strings.Join [x, g, v, "clusters", c, res] "/"⟩⟩ =
      some
        ({ Path := "/" ++ strings.Join [x, g, v, "clusters", c, res] "/"
           Verb :=
             if request.methodVerb method = "get" then "list"
             else if request.methodVerb method = "delete" then "deletecollection"
             else request.methodVerb method
           APIPrefix := x
           APIGroup := g
           APIVersion := v
           Namespace := ""
           Cluster := c
           Project := ""
           Level := "cluster"
           Resource := res
           Subresource := ""
           Name := ""
           Parts := [res] }, none) ∧
      request.methodVerb "DELETE" = "delete" ∧
      request.methodVerb "GET" = "get" ∧
      request.methodVerb "HEAD" = "get" := by
  have hsplit : request.splitPath ("/" ++ strings.Join [x, g, v, "clusters", c, res] "/") =
      [x, g, v, "clusters", c, res] := by
    apply splitPath_of_segments _ (by simp)
    intro s hs
    simp only [List.mem_cons, List.mem_singleton, List.mem_nil_iff, or_false] at hs hseg
    rcases hs with e | e | e | e | e | e
    all_goals first
      | (subst e; exact ⟨by decide, by decide⟩)
      | (rw [e]; exact hseg _ (by simp))
  refine ⟨?_, by decide, by decide, by decide⟩
  by_cases hget : request.methodVerb method = "get"
  · simp [request.RequestInfoFactory.NewRequestInfo, hsplit, hx, request.locateScope,
      request.fillParts, request.adjustVerb, hget, request.ListOptions.zero]
  · by_cases hdel : request.methodVerb method = "delete"
    · simp [request.RequestInfoFactory.NewRequestInfo, hsplit, hx, request.locateScope,
        request.fillParts, request.adjustVerb, hdel, request.ListOptions.zero]
    · simp [request.RequestInfoFactory.NewRequestInfo, hsplit, hx, request.locateScope,
        request.fillParts, request.adjustVerb, hget, hdel, request.ListOptions.zero]

theorem NewRequestInfo_cluster_scoped_witness :
    apiFactory.NewRequestInfo ⟨"DELETE", ⟨"/api/apps/v1/clusters/c1/pods"⟩⟩ =
      some
        ({ Path := "/api/apps/v1/clusters/c1/pods"
           Verb := "deletecollection"
           APIPrefix := "api"
           APIGroup := "apps"
           APIVersion := "v1"
           Namespace := ""
           Cluster := "c1"
           Project := ""
           Level := "cluster"
           Resource := "pods"
           Subresource := ""
           Name := ""
           Parts := ["pods"] }, none) :=
  (NewRequestInfo_cluster_scoped apiFactory "DELETE" "api" "apps" "v1" "c1" "pods"
    (by decide) (by decide)).1

/-- C14 as stated fails for the configured prefix `""` of
`AuthOptions.ApplyToServer`: the path `//apps/v1/clusters/c1/pods` loses its
leading slashes, its first segment `apps` is no configured prefix, and the
DELETE request is returned as a non-resource request with the verb `delete`
and without cluster, resource or level. -/
theorem NewRequestInfo_cluster_scoped_empty_prefix_counterexample :
    "" ∈ configuredFactory.APIPrefixes ∧
      "/" ++ strings.Join ["", "apps", "v1", "clusters", "c1", "pods"] "/" =
        "//apps/v1/clusters/c1/pods" ∧
      configuredFactory.NewRequestInfo ⟨"DELETE", ⟨"//apps/v1/clusters/c1/pods"⟩⟩ =
        some
          ({ Path := "//apps/v1/clusters/c1/pods"
             Verb := "delete"
             APIPrefix := ""
             APIGroup := ""
             APIVersion := ""
             Namespace := ""
             Cluster := ""
             Project := ""
             Level := ""
             Resource := ""
             Subresource := ""
             Name := ""
             Parts := [] }, none) := by
  refine ⟨by decide, by decide, by decide⟩

/-- C15: for every method and every path with at least one segment whose
first segment is not in `APIPrefixes`, `NewRequestInfo` returns a nil error
and a request info that holds the request path, the verb derived from the
method (POST to create, GET and HEAD to get, PUT to update, PATCH to patch,
DELETE to delete, any other method to the empty string) and nothing else. -/
theorem NewRequestInfo_non_resource (r : request.RequestInfoFactory) (method path : String)
    (first : String) (rest : List String)
    (hsplit : request.splitPath path = first :: rest) (hfirst : first ∉ r.APIPrefixes) :
    r.NewRequestInfo ⟨method, ⟨path⟩⟩ =
        some
          ({ Path := path
             Verb := request.methodVerb method
             APIPrefix := ""
             APIGroup := ""
             APIVersion := ""
             Namespace := ""
             Cluster := ""
             Project := ""
             Level := ""
             Resource := ""
             Subresource := ""
             Name := ""
             Parts := [] }, none) ∧
      request.methodVerb "POST" = "create" ∧
      request.methodVerb "GET" = "get" ∧
      request.methodVerb "HEAD" = "get" ∧
      request.methodVerb "PUT" = "update" ∧
      request.methodVerb "PATCH" = "patch" ∧
      request.methodVerb "DELETE" = "delete" ∧
      (method ∉ ["POST", "GET", "HEAD", "PUT", "PATCH", "DELETE"] →
        request.methodVerb method = "") := by
  refine ⟨?_, by decide, by decide, by decide, by decide, by decide, by decide, ?_⟩
  · simp [request.RequestInfoFactory.NewRequestInfo, hsplit, hfirst]
  · intro hm
    simp only [List.mem_cons, List.mem_singleton, List.mem_nil_iff, or_false, not_or] at hm
    obtain ⟨h1, h2, h3, h4, h5, h6⟩ := hm
    simp [request.methodVerb, h1, h2, h3, h4, h5, h6]

theorem NewRequestInfo_non_resource_witness :
    configuredFactory.NewRequestInfo ⟨"OPTIONS", ⟨"/healthz/ready"⟩⟩ =
      some
        ({ Path := "/healthz/ready"
           Verb := ""
           APIPrefix := ""
           APIGroup := ""
           APIVersion := ""
           Namespace := ""
           Cluster := ""
           Project := ""
           Level := ""
           Resource := ""
           Subresource := ""
           Name := ""
           Parts := [] }, none) := by
  have h := (NewRequestInfo_non_resource configuredFactory "OPTIONS" "/healthz/ready"
    "healthz" ["ready"] (by decide) (by decide)).1
  rw [h]
  decide

/-! ## The verb of a located request -/

theorem verbKept_bind {α : Type} (v : String) (o : Option α)
    (f : α → Option (request.RequestInfo × List String))
    (h : ∀ a, ∀ x, f a = some x → x.1.Verb = v) :
    ∀ x, (o >>= f) = some x → x.1.Verb = v := by
  intro x hx
  cases o with
  | none => exact Option.noConfusion hx
  | some a => exact h a x hx

theorem verbKept_ite (v : String) (c : Prop) [Decidable c]
    (a b : Option (request.RequestInfo × List String))
    (ha : ∀ x, a = some x → x.1.Verb = v) (hb : ∀ x, b = some x → x.1.Verb = v) :
    ∀ x, (if c then a else b) = some x → x.1.Verb = v := by
  intro x hx
  by_cases hc : c
  · rw [if_pos hc] at hx
    exact ha x hx
  · rw [if_neg hc] at hx
    exact hb x hx

theorem verbKept_some (v : String) (requestInfo : request.RequestInfo) (left : List String)
    (h : requestInfo.Verb = v) :
    ∀ x, some (requestInfo, left) = some x → x.1.Verb = v := by
  intro x hx
  cases hx
  exact h

theorem locateScope_Verb (requestInfo : request.RequestInfo) (currentParts : List String)
    (located : request.RequestInfo) (left : List String)
    (h : request.locateScope requestInfo currentParts = some (located, left)) :
    located.Verb = requestInfo.Verb := by
  have hall : ∀ x, request.locateScope requestInfo currentParts = some x →
      x.1.Verb = requestInfo.Verb := by
    unfold request.locateScope
    repeat' first
      | (apply verbKept_some; rfl)
      | apply verbKept_ite
      | (apply verbKept_bind; intro _)
  exact hall _ h

theorem fillParts_Verb_Name (requestInfo : request.RequestInfo) (currentParts : List String)
    (filled : request.RequestInfo)
    (h : request.fillParts requestInfo currentParts = some filled) :
    filled.Verb = requestInfo.Verb := by
  rcases currentParts with _ | ⟨a, _ | ⟨b, _ | ⟨c, rest⟩⟩⟩
  all_goals
    simp [request.fillParts] at h
    rw [← h]

theorem adjustVerb_Name (requestInfo : request.RequestInfo) :
    (request.adjustVerb requestInfo).Name = requestInfo.Name := by
  unfold request.adjustVerb
  simp only [request.ListOptions.zero]
  repeat' split
  all_goals rfl

theorem adjustVerb_Verb (requestInfo : request.RequestInfo) :
    (request.adjustVerb requestInfo).Verb =
      if requestInfo.Name = "" ∧ requestInfo.Verb = "get" then "list"
      else if requestInfo.Name = "" ∧ requestInfo.Verb = "delete" then "deletecollection"
      else requestInfo.Verb := by
  unfold request.adjustVerb
  simp only [request.ListOptions.zero, String.length_eq_zero_iff_eq_empty]
  by_cases hn : requestInfo.Name = ""
  · by_cases hg : requestInfo.Verb = "get"
    · simp [hn, hg]
    · by_cases hd : requestInfo.Verb = "delete"
      · simp [hn, hg, hd]
      · simp [hn, hg, hd]
  · simp [hn]

theorem methodVerb_ne_watch (method : String) : request.methodVerb method ≠ "watch" := by
  unfold request.methodVerb
  repeat' split
  all_goals decide

theorem NewRequestInfo_resource_Verb (r : request.RequestInfoFactory) (req : http.Request)
    (info : request.RequestInfo) (err : Option StatusError) (first : String)
    (rest : List String) (hsplit : request.splitPath req.URL.Path = first :: rest)
    (hfirst : first ∈ r.APIPrefixes) (h : r.NewRequestInfo req = some (info, err)) :
    info.Verb =
      if info.Name = "" ∧ request.methodVerb req.Method = "get" then "list"
      else if info.Name = "" ∧ request.methodVerb req.Method = "delete" then
        "deletecollection"
      else request.methodVerb req.Method := by
  unfold request.RequestInfoFactory.NewRequestInfo at h
  simp only [hsplit, List.getElem?_cons_zero, hfirst, not_true_eq_false, if_false] at h
  split at h
  · exact Option.noConfusion h
  · split at h
    · exact Option.noConfusion h
    · split at h
      · exact Option.noConfusion h
      · rename_i located left hlocate
        split at h
        · exact Option.noConfusion h
        · rename_i filled hfill
          simp only [Option.some.injEq, Prod.mk.injEq] at h
          obtain ⟨rfl, _⟩ := h
          have hv1 := locateScope_Verb _ _ _ _ hlocate
          have hv2 := fillParts_Verb_Name _ _ _ hfill
          rw [adjustVerb_Verb, adjustVerb_Name, hv2, hv1]

/-- C16, as amended: for every request whose first path segment is a
configured prefix and for which `NewRequestInfo` returns a result, if the
returned name is empty then the returned verb is neither `get` nor `delete`:
a GET or HEAD without a name segment yields `list` (never `watch`) and a
DELETE without a name segment yields `deletecollection`. -/
theorem NewRequestInfo_verb_without_name (r : request.RequestInfoFactory) (req : http.Request)
    (info : request.RequestInfo) (err : Option StatusError) (first : String)
    (rest : List String) (hsplit : request.splitPath req.URL.Path = first :: rest)
    (hfirst : first ∈ r.APIPrefixes) (h : r.NewRequestInfo req = some (info, err))
    (hname : info.Name = "") :
    info.Verb ≠ "get" ∧ info.Verb ≠ "delete" ∧ info.Verb ≠ "watch" ∧
      ((req.Method = "GET" ∨ req.Method = "HEAD") → info.Verb = "list") ∧
      (req.Method = "DELETE" → info.Verb = "deletecollection") := by
  have hverb := NewRequestInfo_resource_Verb r req info err first rest hsplit hfirst h
  simp only [hname, true_and] at hverb
  have hwatch := methodVerb_ne_watch req.Method
  by_cases hg : request.methodVerb req.Method = "get"
  · rw [if_pos hg] at hverb
    refine ⟨by rw [hverb]; decide, by rw [hverb]; decide, by rw [hverb]; decide,
      fun _ => hverb, fun hm => ?_⟩
    rw [hm] at hg
    exact absurd hg (by decide)
  · rw [if_neg hg] at hverb
    by_cases hd : request.methodVerb req.Method = "delete"
    · rw [if_pos hd] at hverb
      refine ⟨by rw [hverb]; decide, by rw [hverb]; decide, by rw [hverb]; decide,
        fun hm => ?_, fun _ => hverb⟩
      rcases hm with hm | hm
      · rw [hm] at hg
        exact absurd rfl hg
      · rw [hm] at hg
        exact absurd rfl hg
    · rw [if_neg hd] at hverb
      refine ⟨by rw [hverb]; exact hg, by rw [hverb]; exact hd, by rw [hverb]; exact hwatch,
        fun hm => ?_, fun hm => ?_⟩
      · rcases hm with hm | hm
        · rw [hm] at hg
          exact absurd rfl hg
        · rw [hm] at hg
          exact absurd rfl hg
      · rw [hm] at hd
        exact absurd rfl hd

theorem NewRequestInfo_verb_without_name_witness :
    (⟨"/api/apps/v1/pods", "list", "api", "apps", "v1", "", "", "", "platform", "pods", "", "",
        ["pods"]⟩ : request.RequestInfo).Verb ≠ "get" :=
  (NewRequestInfo_verb_without_name apiFactory ⟨"GET", ⟨"/api/apps/v1/pods"⟩⟩
    ⟨"/api/apps/v1/pods", "list", "api", "apps", "v1", "", "", "", "platform", "pods", "", "",
      ["pods"]⟩ none "api" ["apps", "v1", "pods"] (by decide) (by decide) (by decide) rfl).1

/-- C16 as stated fails for a request that is not a resource request: a GET
whose first segment is no configured prefix is returned before the verb is
adjusted, with an empty name and the verb `get`. -/
theorem NewRequestInfo_verb_without_name_counterexample :
    configuredFactory.NewRequestInfo ⟨"GET", ⟨"/healthz"⟩⟩ =
      some
        ({ Path := "/healthz"
           Verb := "get"
           APIPrefix := ""
           APIGroup := ""
           APIVersion := ""
           Namespace := ""
           Cluster := ""
           Project := ""
           Level := ""
           Resource := ""
           Subresource := ""
           Name := ""
           Parts := [] }, none) := by
  decide

/-! ## Paths that end early -/

/-- C17: evaluation at the failing inputs.  For the path `/` the segment
list is empty and `currentParts[0]` is out of range, whatever the prefixes and
the method; a path that ends right after the prefix, the group or the version
fails at the next `currentParts[0]`, and a path that ends in
`clusters/{cluster}/namespaces` fails at `currentParts[1]`. -/
theorem NewRequestInfo_index_out_of_range :
    (∀ (r : request.RequestInfoFactory) (method : String),
        r.NewRequestInfo ⟨method, ⟨"/"⟩⟩ = none) ∧
      configuredFactory.NewRequestInfo ⟨"GET", ⟨"/platform"⟩⟩ = none ∧
      configuredFactory.NewRequestInfo ⟨"GET", ⟨"/platform/apps"⟩⟩ = none ∧
      configuredFactory.NewRequestInfo ⟨"GET", ⟨"/platform/apps/v1"⟩⟩ = none ∧
      configuredFactory.NewRequestInfo
        ⟨"GET", ⟨"/platform/apps/v1/projects/p1/clusters/c1/namespaces"⟩⟩ = none := by
  refine ⟨fun r method => ?_, by decide, by decide, by decide, by decide⟩
  have hsplit : request.splitPath "/" = [] := by decide
  simp [request.RequestInfoFactory.NewRequestInfo, hsplit]

/-! ## The projects layout -/

theorem fillParts_frame (requestInfo : request.RequestInfo) (currentParts : List String) :
    ∃ filled, request.fillParts requestInfo currentParts = some filled ∧
      filled.Project = requestInfo.Project ∧ filled.Cluster = requestInfo.Cluster ∧
      filled.Namespace = requestInfo.Namespace ∧ filled.Level = requestInfo.Level := by
  rcases currentParts with _ | ⟨a, _ | ⟨b, _ | ⟨c, rest⟩⟩⟩
  all_goals simp [request.fillParts]

theorem adjustVerb_frame (requestInfo : request.RequestInfo) :
    (request.adjustVerb requestInfo).Project = requestInfo.Project ∧
      (request.adjustVerb requestInfo).Cluster = requestInfo.Cluster ∧
      (request.adjustVerb requestInfo).Namespace = requestInfo.Namespace ∧
      (request.adjustVerb requestInfo).Level = requestInfo.Level := by
  unfold request.adjustVerb
  simp only [request.ListOptions.zero]
  repeat' split
  all_goals exact ⟨rfl, rfl, rfl, rfl⟩

theorem NewRequestInfo_of_locateScope (r : request.RequestInfoFactory) (method path : String)
    (x g v : String) (currentParts : List String) (located : request.RequestInfo)
    (left : List String) (hsplit : request.splitPath path = x :: g :: v :: currentParts)
    (hx : x ∈ r.APIPrefixes)
    (hlocate :
      request.locateScope
        { Path := path
          Verb := request.methodVerb method
          APIPrefix := x
          APIGroup := g
          APIVersion := v
          Namespace := ""
          Cluster := ""
          Project := ""
          Level := ""
          Resource := ""
          Subresource := ""
          Name := ""
          Parts := [] } currentParts = some (located, left)) :
    ∃ info, r.NewRequestInfo ⟨method, ⟨path⟩⟩ = some (info, none) ∧
      info.Project = located.Project ∧ info.Cluster = located.Cluster ∧
      info.Namespace = located.Namespace ∧ info.Level = located.Level := by
  obtain ⟨filled, hfill, h1, h2, h3, h4⟩ := fillParts_frame located left
  obtain ⟨k1, k2, k3, k4⟩ := adjustVerb_frame filled
  refine ⟨request.adjustVerb filled, ?_, k1.trans h1, k2.trans h2, k3.trans h3, k4.trans h4⟩
  simp [request.RequestInfoFactory.NewRequestInfo, hsplit, hx, hlocate, hfill]

theorem locateScope_projects (requestInfo : request.RequestInfo) (p : String)
    (rest : List String) (hc : requestInfo.Cluster = "") (hn : requestInfo.Namespace = "")
    (hrest : ∀ c, rest ≠ ["clusters", c, "namespaces"]) :
    ∃ located left,
      request.locateScope requestInfo ("projects" :: p :: rest) = some (located, left) ∧
      located.Project = p ∧
      (∀ c n more, rest = "clusters" :: c :: "namespaces" :: n :: more →
        located.Cluster = c ∧ located.Namespace = n ∧ located.Level = "namespace") ∧
      (∀ c more, rest = "clusters" :: c :: more →
        (∀ n more2, more ≠ "namespaces" :: n :: more2) →
        located.Cluster = c ∧ located.Namespace = "" ∧ located.Level = "project") ∧
      ((∀ c more, rest ≠ "clusters" :: c :: more) →
        located.Cluster = "" ∧ located.Namespace = "" ∧ located.Level = "project") := by
  have hproject : ∀ (left : List String), ∃ (located : request.RequestInfo)
      (left' : List String),
      some (({ requestInfo with Project := p, Level := "project" } : request.RequestInfo),
        left) = some (located, left') ∧
      located.Project = p ∧ located.Cluster = "" ∧ located.Namespace = "" ∧
      located.Level = "project" :=
    fun left => ⟨_, _, rfl, rfl, hc, hn, rfl⟩
  have hcluster : ∀ (c : String) (left : List String), ∃ (located : request.RequestInfo)
      (left' : List String),
      some (({ requestInfo with Project := p, Level := "project", Cluster := c } :
        request.RequestInfo), left) = some (located, left') ∧
      located.Project = p ∧ located.Cluster = c ∧ located.Namespace = "" ∧
      located.Level = "project" :=
    fun c left => ⟨_, _, rfl, rfl, rfl, hn, rfl⟩
  rcases rest with _ | ⟨y, _ | ⟨c, _ | ⟨z, _ | ⟨n, more⟩⟩⟩⟩
  · obtain ⟨located, left, hval, h1, h2, h3, h4⟩ := hproject ["projects", p]
    refine ⟨located, left, ?_, h1, ?_, ?_, fun _ => ⟨h2, h3, h4⟩⟩
    · rw [← hval]
      simp [request.locateScope]
    · intro c n more e
      exact absurd e (by simp)
    · intro c more e
      exact absurd e (by simp)
  · obtain ⟨located, left, hval, h1, h2, h3, h4⟩ := hproject [y]
    refine ⟨located, left, ?_, h1, ?_, ?_, fun _ => ⟨h2, h3, h4⟩⟩
    · rw [← hval]
      by_cases hy : y = "clusters" <;> simp [request.locateScope, hy]
    · intro c n more e
      exact absurd e (by simp)
    · intro c more e
      exact absurd e (by simp)
  · by_cases hy : y = "clusters"
    · obtain ⟨located, left, hval, h1, h2, h3, h4⟩ := hcluster c [y, c]
      refine ⟨located, left, ?_, h1, ?_, ?_, fun hno => absurd (by rw [hy]) (hno c [])⟩
      · rw [← hval]
        simp [request.locateScope, hy]
      · intro c' n more e
        exact absurd e (by simp)
      · intro c' more e _
        simp only [List.cons.injEq] at e
        exact ⟨h2.trans e.2.1, h3, h4⟩
    · obtain ⟨located, left, hval, h1, h2, h3, h4⟩ := hproject [y, c]
      refine ⟨located, left, ?_, h1, ?_, ?_, fun _ => ⟨h2, h3, h4⟩⟩
      · rw [← hval]
        simp [request.locateScope, hy]
      · intro c' n more e
        simp only [List.cons.injEq] at e
        exact absurd e.1 hy
      · intro c' more e
        simp only [List.cons.injEq] at e
        exact absurd e.1 hy
  · by_cases hy : y = "clusters"
    · by_cases hz : z = "namespaces"
      · exact absurd (by rw [hy, hz]) (hrest c)
      · obtain ⟨located, left, hval, h1, h2, h3, h4⟩ := hcluster c [z]
        refine ⟨located, left, ?_, h1, ?_, ?_, fun hno => absurd (by rw [hy]) (hno c [z])⟩
        · rw [← hval]
          simp [request.locateScope, hy, hz]
        · intro c' n more e
          simp only [List.cons.injEq] at e
          exact absurd e.2.2.1 hz
        · intro c' more e _
          simp only [List.cons.injEq] at e
          exact ⟨h2.trans e.2.1, h3, h4⟩
    · obtain ⟨located, left, hval, h1, h2, h3, h4⟩ := hproject [y, c, z]
      refine ⟨located, left, ?_, h1, ?_, ?_, fun _ => ⟨h2, h3, h4⟩⟩
      · rw [← hval]
        simp [request.locateScope, hy]
      · intro c' n more e
        simp only [List.cons.injEq] at e
        exact absurd e.1 hy
      · intro c' more e
        simp only [List.cons.injEq] at e
        exact absurd e.1 hy
  · by_cases hy : y = "clusters"
    · by_cases hz : z = "namespaces"
      · have hval : ∃ (left : List String), request.locateScope requestInfo
            ("projects" :: p :: y :: c :: z :: n :: more) =
            some (({ requestInfo with
              Project := p, Level := "namespace", Cluster := c, Namespace := n } :
                request.RequestInfo), left) := by
          cases more with
          | nil => exact ⟨[z, n], by simp [request.locateScope, hy, hz]⟩
          | cons m0 more => exact ⟨m0 :: more, by simp [request.locateScope, hy, hz]⟩
        obtain ⟨left, hval⟩ := hval
        refine ⟨_, left, hval, rfl, ?_, ?_, fun hno => absurd (by rw [hy]) (hno c (z :: n :: more))⟩
        · intro c' n' more' e
          simp only [List.cons.injEq] at e
          exact ⟨e.2.1, e.2.2.2.1, rfl⟩
        · intro c' more' e hns
          simp only [List.cons.injEq] at e
          exact absurd (by rw [← e.2.2, hz]) (hns n more)
      · obtain ⟨located, left, hval, h1, h2, h3, h4⟩ := hcluster c (z :: n :: more)
        refine ⟨located, left, ?_, h1, ?_, ?_, fun hno => absurd (by rw [hy]) (hno c (z :: n :: more))⟩
        · rw [← hval]
          simp [request.locateScope, hy, hz]
        · intro c' n' more' e
          simp only [List.cons.injEq] at e
          exact absurd e.2.2.1 hz
        · intro c' more' e _
          simp only [List.cons.injEq] at e
          exact ⟨h2.trans e.2.1, h3, h4⟩
    · obtain ⟨located, left, hval, h1, h2, h3, h4⟩ := hproject (y :: c :: z :: n :: more)
      refine ⟨located, left, ?_, h1, ?_, ?_, fun _ => ⟨h2, h3, h4⟩⟩
      · rw [← hval]
        simp [request.locateScope, hy]
      · intro c' n' more' e
        simp only [List.cons.injEq] at e
        exact absurd e.1 hy
      · intro c' more' e
        simp only [List.cons.injEq] at e
        exact absurd e.1 hy

/-- C18, as amended: for every request with a recognized prefix whose path
continues with `projects/{project}/...` and does not end in
`clusters/{cluster}/namespaces`, a result is returned with the project set;
the cluster is set as soon as the path continues with `clusters/{cluster}`,
whether or not `namespaces` follows; the namespace is set and the level is
`namespace` exactly when the path continues with
`clusters/{cluster}/namespaces/{namespace}`; otherwise the namespace is empty
and the level is `project`, and without `clusters/{cluster}` the cluster is
empty too. -/
theorem NewRequestInfo_projects_layout (r : request.RequestInfoFactory) (method path : String)
    (x g v p : String) (rest : List String)
    (hsplit : request.splitPath path = x :: g :: v :: "projects" :: p :: rest)
    (hx : x ∈ r.APIPrefixes) (hrest : ∀ c, rest ≠ ["clusters", c, "namespaces"]) :
    ∃ info, r.NewRequestInfo ⟨method, ⟨path⟩⟩ = some (info, none) ∧
      info.Project = p ∧
      (∀ c n more, rest = "clusters" :: c :: "namespaces" :: n :: more →
        info.Cluster = c ∧ info.Namespace = n ∧ info.Level = "namespace") ∧
      (∀ c more, rest = "clusters" :: c :: more →
        (∀ n more2, more ≠ "namespaces" :: n :: more2) →
        info.Cluster = c ∧ info.Namespace = "" ∧ info.Level = "project") ∧
      ((∀ c more, rest ≠ "clusters" :: c :: more) →
        info.Cluster = "" ∧ info.Namespace = "" ∧ info.Level = "project") := by
  obtain ⟨located, left, hlocate, hp, h1, h2, h3⟩ :=
    locateScope_projects
      { Path := path
        Verb := request.methodVerb method
        APIPrefix := x
        APIGroup := g
        APIVersion := v
        Namespace := ""
        Cluster := ""
        Project := ""
        Level := ""
        Resource := ""
        Subresource := ""
        Name := ""
        Parts := [] } p rest rfl rfl hrest
  obtain ⟨info, hinfo, k1, k2, k3, k4⟩ :=
    NewRequestInfo_of_locateScope r method path x g v _ located left hsplit hx hlocate
  refine ⟨info, hinfo, k1.trans hp, ?_, ?_, ?_⟩
  · intro c n more e
    obtain ⟨a, b, d⟩ := h1 c n more e
    exact ⟨k2.trans a, k3.trans b, k4.trans d⟩
  · intro c more e hns
    obtain ⟨a, b, d⟩ := h2 c more e hns
    exact ⟨k2.trans a, k3.trans b, k4.trans d⟩
  · intro hno
    obtain ⟨a, b, d⟩ := h3 hno
    exact ⟨k2.trans a, k3.trans b, k4.trans d⟩

theorem NewRequestInfo_projects_layout_witness :
    ∃ info, apiFactory.NewRequestInfo
        ⟨"GET", ⟨"/api/apps/v1/projects/p1/clusters/c1/namespaces/ns1/pods/foo"⟩⟩ =
        some (info, none) ∧
      info.Project = "p1" ∧ info.Cluster = "c1" ∧ info.Namespace = "ns1" ∧
      info.Level = "namespace" := by
  obtain ⟨info, hinfo, hp, h1, _, _⟩ :=
    NewRequestInfo_projects_layout apiFactory "GET"
      "/api/apps/v1/projects/p1/clusters/c1/namespaces/ns1/pods/foo" "api" "apps" "v1" "p1"
      ["clusters", "c1", "namespaces", "ns1", "pods", "foo"] (by decide) (by decide)
      (fun c e => List.noConfusion (List.cons.inj (List.cons.inj (List.cons.inj e).2).2).2)
  obtain ⟨a, b, d⟩ := h1 "c1" "ns1" ["pods", "foo"] rfl
  exact ⟨info, hinfo, hp, a, b, d⟩

/-- C18 as stated fails for a projects-layout path that continues with
`clusters/{cluster}` and then a resource instead of `namespaces`: the cluster
is set although no namespace follows, and the level stays `project`. -/
theorem NewRequestInfo_projects_cluster_counterexample :
    apiFactory.NewRequestInfo ⟨"GET", ⟨"/api/apps/v1/projects/p1/clusters/c1/pods"⟩⟩ =
      some
        ({ Path := "/api/apps/v1/projects/p1/clusters/c1/pods"
           Verb := "list"
           APIPrefix := "api"
           APIGroup := "apps"
           APIVersion := "v1"
           Namespace := ""
           Cluster := "c1"
           Project := "p1"
           Level := "project"
           Resource := "pods"
           Subresource := ""
           Name := ""
           Parts := ["pods"] }, none) := by
  decide

/-! ## The verb of a request that is not a resource request -/

/-- C19: evaluation at the failing input.  A POST whose first path segment is
no configured prefix is returned with the verb `create`, the value the method
switch stored over the lowercase method `post`; likewise PUT gives `update`
and a method outside the switch gives the empty string. -/
theorem NewRequestInfo_non_resource_verb_not_lowercase_method :
    (configuredFactory.NewRequestInfo ⟨"POST", ⟨"/healthz"⟩⟩).map (fun x => x.1.Verb) =
        some "create" ∧
      strings.ToLower "POST" = "post" ∧
      (configuredFactory.NewRequestInfo ⟨"PUT", ⟨"/healthz"⟩⟩).map (fun x => x.1.Verb) =
        some "update" ∧
      strings.ToLower "PUT" = "put" ∧
      (configuredFactory.NewRequestInfo ⟨"OPTIONS", ⟨"/healthz"⟩⟩).map (fun x => x.1.Verb) =
        some "" ∧
      strings.ToLower "OPTIONS" = "options" := by
  refine ⟨by decide, by decide, by decide, by decide, by decide, by decide⟩

/-! ## The subject cache -/

theorem GoMap.mem_set {V : Type} (m : GoMap V) (k : String) (v : V) (kv : String × V)
    (h : kv ∈ m.set k v) : kv ∈ m ∨ kv = (k, v) := by
  induction m with
  | nil =>
    simp only [GoMap.set, List.mem_singleton] at h
    exact Or.inr h
  | cons kv0 m ih =>
    obtain ⟨k0, v0⟩ := kv0
    by_cases h0 : k0 = k
    · simp only [GoMap.set, h0, if_true, List.mem_cons] at h
      rcases h with h | h
      · exact Or.inr h
      · exact Or.inl (List.mem_cons_of_mem _ h)
    · simp only [GoMap.set, h0, if_false, List.mem_cons] at h
      rcases h with h | h
      · exact Or.inl (h ▸ List.mem_cons_self _ _)
      · rcases ih h with h | h
        · exact Or.inl (List.mem_cons_of_mem _ h)
        · exact Or.inr h

theorem GoMap.mem_delete {V : Type} (m : GoMap V) (k : String) (kv : String × V)
    (h : kv ∈ m.delete k) : kv ∈ m := by
  induction m with
  | nil => exact absurd h (by simp [GoMap.delete])
  | cons kv0 m ih =>
    obtain ⟨k0, v0⟩ := kv0
    by_cases h0 : k0 = k
    · simp only [GoMap.delete, h0, if_true] at h
      exact List.mem_cons_of_mem _ h
    · simp only [GoMap.delete, h0, if_false, List.mem_cons] at h
      rcases h with h | h
      · exact h ▸ List.mem_cons_self _ _
      · exact List.mem_cons_of_mem _ (ih h)

theorem GoMap.mem_of_get? {V : Type} (m : GoMap V) (k : String) (v : V)
    (h : m.get? k = some v) : (k, v) ∈ m := by
  induction m with
  | nil => exact absurd h (by simp [GoMap.get?])
  | cons kv0 m ih =>
    obtain ⟨k0, v0⟩ := kv0
    by_cases h0 : k0 = k
    · simp only [GoMap.get?, h0, if_true, Option.some.injEq] at h
      rw [h0, h]
      exact List.mem_cons_self _ _
    · simp only [GoMap.get?, h0, if_false] at h
      exact List.mem_cons_of_mem _ (ih h)

/-- C20: every user held in the subject cache has at least one group.  The
predicate holds for the empty cache, is preserved by `addUser`, `updateUser`
and `removeUser` for every argument (nil included), and gives every user
returned by `Get` a group; `updateUser` of a user without groups leaves the
cache exactly as `removeUser` of that user does. -/
theorem EveryUserHasGroup_invariant :
    user.Manager.empty.EveryUserHasGroup ∧
      (∀ (m : user.Manager) (u : Option authv1.User), m.EveryUserHasGroup →
        (m.addUser u).EveryUserHasGroup ∧ (m.updateUser u).EveryUserHasGroup ∧
          (m.removeUser u).EveryUserHasGroup) ∧
      (∀ (m : user.Manager) (name : String) (u : authv1.User), m.EveryUserHasGroup →
        (m.Get name).1 = some u → u.Spec.Groups ≠ []) ∧
      (∀ (m : user.Manager) (u : authv1.User), u.Spec.Groups = [] →
        m.updateUser (some u) = m.removeUser (some u)) := by
  refine ⟨?_, ?_, ?_, ?_⟩
  · intro kv hkv
    exact absurd hkv (by simp [user.Manager.empty])
  · intro m u hm
    have hset : ∀ u : authv1.User, u.Spec.Groups ≠ [] →
        user.Manager.EveryUserHasGroup { cache := m.cache.set u.Name u } := by
      intro u hu kv hkv
      rcases GoMap.mem_set m.cache u.Name u kv hkv with h | h
      · exact hm kv h
      · rw [h]
        exact hu
    have hdel : ∀ name : String,
        user.Manager.EveryUserHasGroup { cache := m.cache.delete name } :=
      fun name kv hkv => hm kv (GoMap.mem_delete m.cache name kv hkv)
    cases u with
    | none => exact ⟨hm, hm, hm⟩
    | some u =>
      by_cases hg : u.Spec.Groups.length = 0
      · refine ⟨?_, ?_, hdel u.Name⟩
        · simpa [user.Manager.addUser, hg] using hm
        · simpa [user.Manager.updateUser, hg] using hdel u.Name
      · have hne : u.Spec.Groups ≠ [] := fun e => hg (by rw [e]; rfl)
        refine ⟨?_, ?_, hdel u.Name⟩
        · simpa [user.Manager.addUser, hg] using hset u hne
        · simpa [user.Manager.updateUser, hg] using hset u hne
  · intro m name u hm hget
    unfold user.Manager.Get at hget
    cases hfound : m.cache.get? name with
    | none =>
      rw [hfound] at hget
      exact Option.noConfusion hget
    | some u' =>
      rw [hfound] at hget
      simp only [Option.some.injEq] at hget
      rw [← hget]
      exact hm (name, u') (GoMap.mem_of_get? m.cache name u' hfound)
  · intro m u hu
    simp [user.Manager.updateUser, user.Manager.removeUser, hu]

theorem EveryUserHasGroup_invariant_witness :
    ((user.Manager.empty.addUser (some ⟨"u2", ⟨["dev"]⟩⟩)).updateUser
        (some ⟨"u2", ⟨[]⟩⟩)).EveryUserHasGroup ∧
      (user.Manager.empty.addUser (some ⟨"u2", ⟨["dev"]⟩⟩)).updateUser (some ⟨"u2", ⟨[]⟩⟩) =
        (user.Manager.empty.addUser (some ⟨"u2", ⟨["dev"]⟩⟩)).removeUser
          (some ⟨"u2", ⟨[]⟩⟩) :=
  ⟨(EveryUserHasGroup_invariant.2.1 _ (some ⟨"u2", ⟨[]⟩⟩)
      (EveryUserHasGroup_invariant.2.1 _ (some ⟨"u2", ⟨["dev"]⟩⟩)
        EveryUserHasGroup_invariant.1).1).2.1,
    EveryUserHasGroup_invariant.2.2.2 _ ⟨"u2", ⟨[]⟩⟩ rfl⟩

/-! ## The binding cache -/

theorem GoMap.set_ne_nil {V : Type} (m : GoMap V) (k : String) (v : V) : m.set k v ≠ [] := by
  cases m with
  | nil => simp [GoMap.set]
  | cons kv m =>
    obtain ⟨k0, v0⟩ := kv
    by_cases h0 : k0 = k <;> simp [GoMap.set, h0]

theorem GoMap.delete_set_of_absent {V : Type} (m : GoMap V) (k : String) (v : V)
    (h : m.get? k = none) : (m.set k v).delete k = m := by
  induction m with
  | nil => simp [GoMap.set, GoMap.delete]
  | cons kv m ih =>
    obtain ⟨k0, v0⟩ := kv
    by_cases h0 : k0 = k
    · simp [GoMap.get?, h0] at h
    · simp only [GoMap.get?, h0, if_false] at h
      simp [GoMap.set, GoMap.delete, h0, ih h]

theorem GoMap.set_set {V : Type} (m : GoMap V) (k : String) (v w : V) :
    (m.set k v).set k w = m.set k w := by
  induction m with
  | nil => simp [GoMap.set]
  | cons kv m ih =>
    obtain ⟨k0, v0⟩ := kv
    by_cases h0 : k0 = k
    · simp [GoMap.set, h0]
    · simp [GoMap.set, h0, ih]

theorem GoMap.set_of_get? {V : Type} (m : GoMap V) (k : String) (v : V)
    (h : m.get? k = some v) : m.set k v = m := by
  induction m with
  | nil => simp [GoMap.get?] at h
  | cons kv m ih =>
    obtain ⟨k0, v0⟩ := kv
    by_cases h0 : k0 = k
    · simp only [GoMap.get?, h0, if_true, Option.some.injEq] at h
      simp [GoMap.set, h0, h]
    · simp only [GoMap.get?, h0, if_false] at h
      simp [GoMap.set, h0, ih h]

theorem removeIndex_updateIndex (index : GoMap (GoMap authv1.UserBinding)) (key : String)
    (cr : authv1.UserBinding) (hne : userbinding.NoEmptyInner index)
    (hnew : ∀ data, index.get? key = some data → data.get? cr.Name = none) :
    userbinding.removeIndex (userbinding.updateIndex index key cr) key cr = index := by
  unfold userbinding.removeIndex userbinding.updateIndex
  by_cases hkey : key.length > 0
  · simp only [hkey, if_true, GoMap.get?_set]
    cases hdata : index.get? key with
    | none =>
      have hinner : GoMap.get? (GoMap.set ([] : GoMap authv1.UserBinding) cr.Name cr) cr.Name = some cr := by
        simp [GoMap.get?_set]
      have hdel : GoMap.delete (GoMap.set ([] : GoMap authv1.UserBinding) cr.Name cr) cr.Name = [] :=
        GoMap.delete_set_of_absent [] cr.Name cr rfl
      simp only [hinner, Option.isSome_some, if_true, hdel, List.length_nil]
      exact GoMap.delete_set_of_absent index key _ hdata
    | some data =>
      have habsent := hnew data hdata
      have hinner : (data.set cr.Name cr).get? cr.Name = some cr := by
        simp [GoMap.get?_set]
      have hdel : (data.set cr.Name cr).delete cr.Name = data :=
        GoMap.delete_set_of_absent data cr.Name cr habsent
      have hdatane : data ≠ [] := hne (key, data) (GoMap.mem_of_get? index key data hdata)
      have hlen : ¬ data.length = 0 := fun e => hdatane (List.length_eq_zero.mp e)
      simp only [hinner, Option.isSome_some, if_true, hdel, hlen, if_false]
      rw [GoMap.set_set]
      exact GoMap.set_of_get? index key data hdata
  · simp only [hkey, if_false]

theorem NoEmptyInner_updateIndex (index : GoMap (GoMap authv1.UserBinding)) (key : String)
    (cr : authv1.UserBinding) (hne : userbinding.NoEmptyInner index) :
    userbinding.NoEmptyInner (userbinding.updateIndex index key cr) := by
  unfold userbinding.updateIndex
  by_cases hkey : key.length > 0
  · simp only [hkey, if_true]
    intro kv hkv
    rcases GoMap.mem_set index key _ kv hkv with h | h
    · exact hne kv h
    · rw [h]
      exact GoMap.set_ne_nil _ _ _
  · simpa only [hkey, if_false] using hne

theorem NoEmptyInner_removeIndex (index : GoMap (GoMap authv1.UserBinding)) (key : String)
    (cr : authv1.UserBinding) (hne : userbinding.NoEmptyInner index) :
    userbinding.NoEmptyInner (userbinding.removeIndex index key cr) := by
  unfold userbinding.removeIndex
  by_cases hkey : key.length > 0
  · simp only [hkey, if_true]
    cases hdata : index.get? key with
    | none => exact hne
    | some data =>
      simp only
      generalize (if (data.get? cr.Name).isSome = true then data.delete cr.Name else data) =
        left
      by_cases hlen : left.length = 0
      · rw [if_pos hlen]
        exact fun kv hkv => hne kv (GoMap.mem_delete index key kv hkv)
      · rw [if_neg hlen]
        intro kv hkv
        rcases GoMap.mem_set index key _ kv hkv with h | h
        · exact hne kv h
        · rw [h]
          intro e
          have e' : left = [] := e
          exact hlen (by rw [e']; rfl)
  · simpa only [hkey, if_false] using hne

/-- C21: for a binding that carries neither a non-empty user-email label nor
a non-empty group-name label, `updateUserBinding` leaves the subject index and
the group index unchanged, so `GetUserBindings` and `GetUserBindingsByGroups`
return what they returned before, for every key. -/
theorem updateUserBinding_orphan (r : userbinding.Resolver) (cr : authv1.UserBinding)
    (huser : cr.UserEmailName = "") (hgroup : cr.GroupName = "") :
    r.updateUserBinding (some cr) = r ∧
      (∀ userName, (r.updateUserBinding (some cr)).GetUserBindings userName =
        r.GetUserBindings userName) ∧
      (∀ groups, (r.updateUserBinding (some cr)).GetUserBindingsByGroups groups =
        r.GetUserBindingsByGroups groups) := by
  have hsame : r.updateUserBinding (some cr) = r := by
    simp [userbinding.Resolver.updateUserBinding, userbinding.updateIndex, huser, hgroup]
  rw [hsame]
  exact ⟨rfl, fun _ => rfl, fun _ => rfl⟩

theorem updateUserBinding_orphan_witness :
    groupedManager.userBindingResolver.updateUserBinding (some orphanBinding) =
        groupedManager.userBindingResolver ∧
      (∀ userName,
        (groupedManager.userBindingResolver.updateUserBinding
          (some orphanBinding)).GetUserBindings userName =
          groupedManager.userBindingResolver.GetUserBindings userName) ∧
      (∀ groups,
        (groupedManager.userBindingResolver.updateUserBinding
          (some orphanBinding)).GetUserBindingsByGroups groups =
          groupedManager.userBindingResolver.GetUserBindingsByGroups groups) :=
  updateUserBinding_orphan groupedManager.userBindingResolver orphanBinding (by decide)
    (by decide)

/-! ## The role cache -/

theorem GoMap.delete_sublist {V : Type} (m : GoMap V) (k : String) :
    (m.delete k).Sublist m := by
  induction m with
  | nil => exact List.Sublist.refl _
  | cons kv m ih =>
    obtain ⟨k0, v0⟩ := kv
    by_cases h0 : k0 = k
    · simp only [GoMap.delete, h0, if_true]
      exact List.sublist_cons_self _ _
    · simp only [GoMap.delete, h0, if_false]
      exact ih.cons₂ _

theorem GoMap.WF_delete {V : Type} (m : GoMap V) (k : String) (h : m.WF) :
    (m.delete k).WF :=
  List.Nodup.sublist ((GoMap.delete_sublist m k).map Prod.fst) h

theorem KeyedByName_names_nodup (r : clusterrole.Resolver) (roleRelativeName : String)
    (h : r.KeyedByName) :
    ((r.GetClusterRoles roleRelativeName).map (fun role => role.Name)).Nodup := by
  obtain ⟨hwf, hkey⟩ := h
  have hnames : (r.cache.map Prod.snd).map (fun role => role.Name) = r.cache.map Prod.fst := by
    rw [List.map_map]
    apply List.map_congr_left
    intro kv hkv
    exact (hkey kv hkv).symm
  rw [GetClusterRoles_eq]
  refine List.Nodup.sublist (List.Sublist.map _ (List.filter_sublist _)) ?_
  rw [hnames]
  exact hwf

/-- C22: `GetClusterRoles(f)` returns exactly the cached roles that carry the
label `auth.cpaas.io/role.relative` with value `f`, every such role whatever
its name and no role without the label or with another value.  The cache built
by `updateClusterRole` and `removeClusterRole` from the empty cache holds one
entry per role name, each under the name of its role, and then the returned
roles have pairwise distinct names. -/
theorem GetClusterRoles_family (r : clusterrole.Resolver) (roleRelativeName : String) :
    (∀ role, role ∈ r.GetClusterRoles roleRelativeName ↔
        (∃ name, (name, role) ∈ r.cache) ∧
          role.Labels.get? "auth.cpaas.io/role.relative" = some roleRelativeName) ∧
      r.GetClusterRoles roleRelativeName =
        (r.cache.map Prod.snd).filter (fun role =>
          decide (role.Labels.get? "auth.cpaas.io/role.relative" = some roleRelativeName)) ∧
      clusterrole.Resolver.empty.KeyedByName ∧
      (∀ cr, r.KeyedByName →
        (r.updateClusterRole cr).KeyedByName ∧ (r.removeClusterRole cr).KeyedByName) ∧
      (r.KeyedByName →
        ((r.GetClusterRoles roleRelativeName).map (fun role => role.Name)).Nodup) := by
  refine ⟨?_, GetClusterRoles_eq r roleRelativeName, ?_, ?_,
    KeyedByName_names_nodup r roleRelativeName⟩
  · intro role
    rw [GetClusterRoles_eq]
    simp [List.mem_filter]
  · exact ⟨List.nodup_nil, fun kv hkv => absurd hkv (by simp [clusterrole.Resolver.empty])⟩
  · intro cr hr
    obtain ⟨hwf, hkey⟩ := hr
    cases cr with
    | none => exact ⟨⟨hwf, hkey⟩, ⟨hwf, hkey⟩⟩
    | some cr =>
      refine ⟨⟨GoMap.WF_set r.cache cr.Name cr hwf, ?_⟩,
        ⟨GoMap.WF_delete r.cache cr.Name hwf, ?_⟩⟩
      · intro kv hkv
        rcases GoMap.mem_set r.cache cr.Name cr kv hkv with h | h
        · exact hkey kv h
        · rw [h]
      · exact fun kv hkv => hkey kv (GoMap.mem_delete r.cache cr.Name kv hkv)

theorem GetClusterRoles_family_witness :
    (((clusterrole.Resolver.empty.updateClusterRole (some viewerRole)).updateClusterRole
        (some ⟨"viewer-apps", [("auth.cpaas.io/role.relative", "viewer")],
          [appsAndWildcardRule]⟩)).updateClusterRole
        (some ⟨"editor", [("auth.cpaas.io/role.relative", "editor")], []⟩)).GetClusterRoles
        "viewer" =
      [viewerRole,
        ⟨"viewer-apps", [("auth.cpaas.io/role.relative", "viewer")], [appsAndWildcardRule]⟩] := by
  rw [(GetClusterRoles_family _ "viewer").2.1]
  decide

/-! ## The resource mapping -/

theorem strings.Join_splitChars (sep : Char) (cs : List Char) :
    (strings.Join ((strings.splitChars sep cs).map String.mk) (String.mk [sep])).data = cs := by
  induction cs with
  | nil => rfl
  | cons c cs ih =>
    by_cases hc : c = sep
    · simp only [strings.splitChars, hc, if_true, List.map_cons]
      obtain ⟨p, ps, hps⟩ := List.exists_cons_of_ne_nil (strings.splitChars_ne_nil sep cs)
      rw [hps] at ih ⊢
      rw [List.map_cons, strings.Join_data_cons_cons, ← List.map_cons, ih]
      rfl
    · simp only [strings.splitChars, hc, if_false]
      obtain ⟨p, ps, hps⟩ := List.exists_cons_of_ne_nil (strings.splitChars_ne_nil sep cs)
      rw [hps] at ih ⊢
      simp only
      cases ps with
      | nil =>
        simp only [List.map_cons, List.map_nil, strings.Join] at ih ⊢
        rw [← ih]
      | cons q qs =>
        rw [List.map_cons, List.map_cons, strings.Join_data_cons_cons] at ih ⊢
        rw [← ih]
        rfl

theorem strings.splitChars_head_tail (sep : Char) (cs : List Char) :
    ∃ rest, strings.splitChars sep cs = cs.takeWhile (fun c => decide (c ≠ sep)) :: rest ∧
      (strings.Join (rest.map String.mk) (String.mk [sep])).data =
        (cs.dropWhile (fun c => decide (c ≠ sep))).drop 1 := by
  induction cs with
  | nil => exact ⟨[], rfl, rfl⟩
  | cons c cs ih =>
    by_cases hc : c = sep
    · refine ⟨strings.splitChars sep cs, ?_, ?_⟩
      · simp [strings.splitChars, hc]
      · rw [strings.Join_splitChars]
        simp [hc]
    · obtain ⟨rest, hsplit, hjoin⟩ := ih
      refine ⟨rest, ?_, ?_⟩
      · simp [strings.splitChars, hc, hsplit]
      · rw [hjoin]
        simp [hc]

theorem takeWhile_sep_dropWhile (sep : Char) (cs : List Char) (h : sep ∈ cs) :
    cs.takeWhile (fun c => decide (c ≠ sep)) ++
        sep :: (cs.dropWhile (fun c => decide (c ≠ sep))).drop 1 = cs := by
  induction cs with
  | nil => simp at h
  | cons c cs ih =>
    by_cases hc : c = sep
    · simp [hc]
    · have hmem : sep ∈ cs := by
        rcases List.mem_cons.mp h with e | e
        · exact absurd e.symm hc
        · exact e
      simpa [hc] using ih hmem

/-- C23: in the resource mapping of `Authorize`, when the table holds the key
`Resource + "." + APIGroup` with value `v`, the resource becomes the part of
`v` before its first `"."` and the API group the part after it, the other
fields are kept, and for every `v` that holds a `"."` the mapped
`Resource + "." + APIGroup` equals `v`; when the option is nil or the key is
absent (in particular for an empty table) the request info is unchanged. -/
theorem remapResource_spec (opt : Option FilterOption) (requestInfo : request.RequestInfo) :
    (opt = none → remapResource opt requestInfo = some requestInfo) ∧
      (∀ o, opt = some o →
        o.ResourceMap.get? (requestInfo.Resource ++ "." ++ requestInfo.APIGroup) = none →
        remapResource opt requestInfo = some requestInfo) ∧
      (∀ o v, opt = some o →
        o.ResourceMap.get? (requestInfo.Resource ++ "." ++ requestInfo.APIGroup) = some v →
        ∃ resource group,
          remapResource opt requestInfo =
            some { requestInfo with Resource := resource, APIGroup := group } ∧
          resource.data = v.data.takeWhile (fun c => decide (c ≠ '.')) ∧
          group.data = (v.data.dropWhile (fun c => decide (c ≠ '.'))).drop 1 ∧
          ('.' ∈ v.data → resource ++ "." ++ group = v)) := by
  refine ⟨?_, ?_, ?_⟩
  · intro hopt
    rw [hopt]
    rfl
  · intro o hopt habsent
    rw [hopt]
    unfold remapResource
    simp only [habsent]
    split <;> rfl
  · intro o v hopt hpresent
    rw [hopt]
    have hlen : o.ResourceMap.length > 0 := by
      cases hmap : o.ResourceMap with
      | nil => rw [hmap] at hpresent; simp [GoMap.get?] at hpresent
      | cons kv m => simp
    obtain ⟨rest, hsplit, hjoin⟩ := strings.splitChars_head_tail '.' v.data
    refine ⟨String.mk (v.data.takeWhile (fun c => decide (c ≠ '.'))),
      strings.Join (rest.map String.mk) ".", ?_, rfl, hjoin, ?_⟩
    · unfold remapResource
      simp only [hlen, if_true, hpresent, strings.Split, hsplit, List.map_cons,
        List.getElem?_cons_zero, List.drop_succ_cons, List.drop_zero]
    · intro hdot
      have hdata : (String.mk (v.data.takeWhile (fun c => decide (c ≠ '.'))) ++ "." ++
          strings.Join (rest.map String.mk) ".").data = v.data := by
        have hj : (strings.Join (rest.map String.mk) ".").data =
            (v.data.dropWhile (fun c => decide (c ≠ '.'))).drop 1 := hjoin
        simp only [String.data_append, hj, List.append_assoc]
        exact takeWhile_sep_dropWhile '.' v.data hdot
      exact String.ext hdata

theorem remapResource_spec_witness :
    ∃ resource group,
      remapResource (some ⟨[("abc.alauda.io", "metrics.alauda.io")]⟩)
          ⟨"/platform/alauda.io/v1/abc", "list", "platform", "alauda.io", "v1", "", "", "",
            "platform", "abc", "", "", ["abc"]⟩ =
        some
          { (⟨"/platform/alauda.io/v1/abc", "list", "platform", "alauda.io", "v1", "", "", "",
              "platform", "abc", "", "", ["abc"]⟩ : request.RequestInfo) with
            Resource := resource, APIGroup := group } ∧
      resource.data = "metrics.alauda.io".data.takeWhile (fun c => decide (c ≠ '.')) ∧
      group.data = ("metrics.alauda.io".data.dropWhile (fun c => decide (c ≠ '.'))).drop 1 ∧
      ('.' ∈ "metrics.alauda.io".data → resource ++ "." ++ group = "metrics.alauda.io") :=
  (remapResource_spec (some ⟨[("abc.alauda.io", "metrics.alauda.io")]⟩)
    ⟨"/platform/alauda.io/v1/abc", "list", "platform", "alauda.io", "v1", "", "", "",
      "platform", "abc", "", "", ["abc"]⟩).2.2
    ⟨[("abc.alauda.io", "metrics.alauda.io")]⟩ "metrics.alauda.io" rfl (by decide)

/-! ## Label values -/

theorem noneEqualFold_iff (t : unicode.CaseTables) (other : String) (split : List String) :
    dataselect.noneEqualFold t other split = true ↔
      ∀ s ∈ split, t.EqualFold s (strings.ReplaceAll other "!:" ":") = false := by
  induction split with
  | nil => simp [dataselect.noneEqualFold]
  | cons s split ih =>
    by_cases hs : t.EqualFold s (strings.ReplaceAll other "!:" ":") = true
    · simp [dataselect.noneEqualFold, hs]
    · simp [dataselect.noneEqualFold, hs, ih]

theorem someEqualLower_iff (t : unicode.CaseTables) (other : String) (split : List String) :
    dataselect.someEqualLower t other split = true ↔
      ∃ s ∈ split, t.ToLower s = t.ToLower other := by
  induction split with
  | nil => simp [dataselect.someEqualLower]
  | cons s split ih =>
    by_cases hs : t.ToLower s = t.ToLower other
    · simp [dataselect.someEqualLower, hs]
    · simp [dataselect.someEqualLower, hs, ih]

theorem strings.Split_ne_nil (s : String) (sep : Char) : strings.Split s sep ≠ [] := by
  unfold strings.Split
  intro h
  exact strings.splitChars_ne_nil sep s.data (List.map_eq_nil_iff.mp h)

theorem equalFoldChars_iff (t : unicode.CaseTables) (s u : List Char) :
    t.equalFoldChars s u = true ↔
      List.Forall₂ (fun a b => a = b ∨ t.sameFold a b = true) s u := by
  induction s generalizing u with
  | nil =>
    cases u with
    | nil => simp [unicode.CaseTables.equalFoldChars]
    | cons b u => simp [unicode.CaseTables.equalFoldChars]
  | cons a s ih =>
    cases u with
    | nil => simp [unicode.CaseTables.equalFoldChars]
    | cons b u => simp [unicode.CaseTables.equalFoldChars, ih]

theorem replaceChars_bang_colon (cs : List Char) :
    strings.replaceChars ['!', ':'] [':'] cs 0 = replaceBangColon cs := by
  induction cs using replaceBangColon.induct with
  | case1 => rfl
  | case2 c =>
    by_cases hc : c = '!'
    · simp [strings.replaceChars, replaceBangColon, List.isPrefixOf, hc]
    · simp [strings.replaceChars, replaceBangColon, List.isPrefixOf, hc]
  | case3 a b rest hab ih =>
    obtain ⟨ha, hb⟩ := hab
    subst ha
    subst hb
    simp [strings.replaceChars, replaceBangColon, List.isPrefixOf, ih]
  | case4 a b rest hab ih =>
    have hpre : List.isPrefixOf ['!', ':'] (a :: b :: rest) = false := by
      by_cases ha : a = '!'
      · have hb : ¬ ':' = b := fun e => hab ⟨ha, e.symm⟩
        simp [List.isPrefixOf, ha, hb]
      · have ha' : ¬ '!' = a := fun e => ha e.symm
        simp [List.isPrefixOf, ha']
    rw [replaceBangColon, if_neg hab, ← ih]
    simp only [strings.replaceChars, hpre]
    rfl

theorem containsChars_bang_colon (l : List Char) :
    strings.containsChars ['!', ':'] l = true ↔
      ∃ before after, l = before ++ '!' :: ':' :: after := by
  induction l with
  | nil => simp [strings.containsChars]
  | cons c cs ih =>
    simp only [strings.containsChars, Bool.or_eq_true, ih]
    constructor
    · rintro (h | ⟨before, after, h⟩)
      · cases cs with
        | nil => simp [List.isPrefixOf] at h
        | cons d ds =>
          simp only [List.isPrefixOf, Bool.and_eq_true, beq_iff_eq, Bool.and_true] at h
          exact ⟨[], ds, by rw [← h.1, ← h.2]; rfl⟩
      · exact ⟨c :: before, after, by rw [h]; rfl⟩
    · rintro ⟨before, after, h⟩
      cases before with
      | nil =>
        left
        simp only [List.nil_append, List.cons.injEq] at h
        rw [h.1, h.2]
        simp [List.isPrefixOf]
      | cons b before =>
        right
        simp only [List.cons_append, List.cons.injEq] at h
        exact ⟨before, after, h.2⟩

theorem equalFoldChars_length (t : unicode.CaseTables) (s u : List Char)
    (h : t.equalFoldChars s u = true) : s.length = u.length :=
  ((equalFoldChars_iff t s u).mp h).length_eq

theorem equalFoldChars_refl (t : unicode.CaseTables) (s : List Char) :
    t.equalFoldChars s s = true := by
  induction s with
  | nil => rfl
  | cons a s ih => simp [unicode.CaseTables.equalFoldChars, ih]

/-- C25: `StdComparableLabel.Contains` on a comma-separated label value `v`,
under every case table.  When the other value holds `!:` the result is true
iff no comma-separated element of `v` equals, under `strings.EqualFold`, the
other value with every `!:` replaced by `:`; otherwise it is true iff some
element of `v` has the same `strings.ToLower` image as the other value.  The
library functions mean what their names say: `Contains` finds the two runes
`!:` in a row, `ReplaceAll` replaces each `!:` from left to right, `EqualFold`
compares rune by rune up to simple case folding and `ToLower` lowers every
rune. -/
theorem StdComparableLabel_Contains_spec (t : unicode.CaseTables)
    (v : dataselect.StdComparableLabel) (otherV : dataselect.ComparableValue) :
    (strings.Contains (dataselect.ToString otherV) "!:" = true →
        (dataselect.StdComparableLabel.Contains t v otherV = true ↔
          ∀ s ∈ strings.Split v ',',
            t.EqualFold s (strings.ReplaceAll (dataselect.ToString otherV) "!:" ":") =
              false)) ∧
      (strings.Contains (dataselect.ToString otherV) "!:" = false →
        (dataselect.StdComparableLabel.Contains t v otherV = true ↔
          ∃ s ∈ strings.Split v ',',
            t.ToLower s = t.ToLower (dataselect.ToString otherV))) ∧
      (strings.Contains (dataselect.ToString otherV) "!:" = true ↔
        ∃ before after, (dataselect.ToString otherV).data = before ++ '!' :: ':' :: after) ∧
      (strings.ReplaceAll (dataselect.ToString otherV) "!:" ":").data =
        replaceBangColon (dataselect.ToString otherV).data ∧
      (∀ s u : String, t.EqualFold s u = true ↔
        List.Forall₂ (fun a b => a = b ∨ t.sameFold a b = true) s.data u.data) ∧
      (∀ s : String, (t.ToLower s).data = s.data.map t.lower) := by
  have hlen : ¬ (strings.Split v ',').length = 0 :=
    fun e => strings.Split_ne_nil v ',' (List.length_eq_zero.mp e)
  refine ⟨?_, ?_, containsChars_bang_colon _, replaceChars_bang_colon _,
    fun s u => equalFoldChars_iff t s.data u.data, fun _ => rfl⟩
  · intro hbang
    unfold dataselect.StdComparableLabel.Contains
    simp only [hbang, if_true, hlen, if_false]
    exact noneEqualFold_iff t _ _
  · intro hbang
    unfold dataselect.StdComparableLabel.Contains
    simp only [hbang, Bool.false_eq_true, if_false, hlen]
    exact someEqualLower_iff t _ _

theorem StdComparableLabel_Contains_spec_witness :
    (∀ t : unicode.CaseTables,
        dataselect.StdComparableLabel.Contains t "category:Build,source:customer,lang:go"
          ⟨"lang!:java"⟩ = true) ∧
      (∀ t : unicode.CaseTables,
        dataselect.StdComparableLabel.Contains t "category:Build,source:customer,lang:go"
          ⟨"lang!:go"⟩ = false) ∧
      dataselect.StdComparableLabel.Contains sampleTables
        "category:Build,source:customer,lang:go" ⟨"lang!:GO"⟩ = false ∧
      dataselect.StdComparableLabel.Contains sampleTables
        "category:Build,source:customer,lang:go" ⟨"SOURCE:Customer"⟩ = true ∧
      dataselect.StdComparableLabel.Contains sampleTables "É" ⟨"é"⟩ = true ∧
      dataselect.StdComparableLabel.Contains sampleTables "lang:É" ⟨"lang!:é"⟩ = false ∧
      dataselect.StdComparableLabel.Contains sampleTables "a:ſ" ⟨"a!:s"⟩ = false ∧
      dataselect.StdComparableLabel.Contains sampleTables "ſ" ⟨"s"⟩ = false := by
  have hsplit : strings.Split "category:Build,source:customer,lang:go" ',' =
      ["category:Build", "source:customer", "lang:go"] := by decide
  refine ⟨fun t => ?_, fun t => ?_, by decide, by decide, by decide, by decide, by decide,
    by decide⟩
  · apply ((StdComparableLabel_Contains_spec t "category:Build,source:customer,lang:go"
      ⟨"lang!:java"⟩).1 (by decide)).mpr
    have hreplaced : strings.ReplaceAll (dataselect.ToString ⟨"lang!:java"⟩) "!:" ":" =
        "lang:java" := by decide
    rw [hsplit, hreplaced]
    intro s hs
    have hne : s.data.length ≠ "lang:java".data.length := by
      simp only [List.mem_cons, List.mem_singleton, List.mem_nil_iff, or_false] at hs
      rcases hs with e | e | e <;> (rw [e]; decide)
    cases hfold : t.EqualFold s "lang:java" with
    | false => rfl
    | true => exact absurd (equalFoldChars_length t _ _ hfold) hne
  · have hiff := (StdComparableLabel_Contains_spec t "category:Build,source:customer,lang:go"
      ⟨"lang!:go"⟩).1 (by decide)
    have hreplaced : strings.ReplaceAll (dataselect.ToString ⟨"lang!:go"⟩) "!:" ":" =
        "lang:go" := by decide
    rw [hsplit, hreplaced] at hiff
    cases hc : dataselect.StdComparableLabel.Contains t
        "category:Build,source:customer,lang:go" ⟨"lang!:go"⟩ with
    | false => rfl
    | true =>
      have hall := hiff.mp hc "lang:go" (by simp)
      have hrefl : t.EqualFold "lang:go" "lang:go" = true := equalFoldChars_refl t _
      rw [hrefl] at hall
      exact Bool.noConfusion hall

/-! ## The insecure port -/

/-- C26: evaluation at the failing input.  `Validate` accepts a port exactly
when it lies in 0..65335, the bound written in the code, so the valid ports
65336..65535 are rejected with one error each: 65535 and 65336 give one error,
65335 gives none. -/
theorem Validate_rejects_valid_ports :
    (∀ s : options.InsecureServingOptions,
        options.InsecureServingOptions.Validate (some s) = some [] ↔
          (0 ≤ s.BindPort ∧ s.BindPort ≤ 65335)) ∧
      (options.InsecureServingOptions.Validate (some ⟨65535, true, ""⟩)).map List.length =
        some 1 ∧
      (options.InsecureServingOptions.Validate (some ⟨65336, true, ""⟩)).map List.length =
        some 1 ∧
      options.InsecureServingOptions.Validate (some ⟨65335, true, ""⟩) = some [] ∧
      options.InsecureServingOptions.Validate none = none := by
  refine ⟨fun s => ?_, by decide, by decide, by decide, rfl⟩
  unfold options.InsecureServingOptions.Validate
  by_cases h : s.BindPort < 0 ∨ s.BindPort > 65335
  · simp only [h, if_true, List.nil_append, Option.some.injEq]
    constructor
    · intro e
      exact absurd e (by simp)
    · rintro ⟨h1, h2⟩
      rcases h with h | h <;> omega
  · simp only [h, if_false, true_iff]
    omega

/-! ## Order dependence and the empty cluster list -/

/-- C27: the constraint check is order-dependent.  For the permission
constraints `res:cluster = "c1,c2"`, `res:name = "foo"` and the request
`res:cluster = "c2"`, `res:name = "bar"`, `matchAllConstraints` returns true
when the cluster dimension is visited first and false when the resource name
is visited first. -/
theorem matchAllConstraints_order_dependent :
    ∃ (p : Permission) (order : GoMap String) (constraints : GoMap String),
      order.Perm p.Constraints ∧ 2 ≤ p.Constraints.length ∧ p.Constraints.WF ∧
        p.matchAllConstraints constraints = true ∧
        ({ p with Constraints := order } : Permission).matchAllConstraints constraints =
          false := by
  refine ⟨clusterFirstPermission, [(ResResourceName, "foo"), (ResCluster, "c1,c2")],
    [(ResCluster, "c2"), (ResResourceName, "bar")], List.Perm.swap _ _ _, by decide, ?_,
    by decide, by decide⟩
  unfold GoMap.WF
  decide

/-- C28: evaluation at the failing input.  After an update event for the
binding `b1` labelled with the user `u1` and a later update event for `b1`
labelled with the user `u2`, the name `b1` is retrievable under both subject
keys, and the record under `u1` is the one of the earlier event. -/
theorem updateUserBinding_keeps_stale_entry :
    ((userbinding.Resolver.empty.updateUserBinding (some bindingOfU1)).updateUserBinding
        (some bindingMovedToU2)).GetUserBindings "u1" = [bindingOfU1] ∧
      ((userbinding.Resolver.empty.updateUserBinding (some bindingOfU1)).updateUserBinding
        (some bindingMovedToU2)).GetUserBindings "u2" = [bindingMovedToU2] ∧
      bindingOfU1.Name = bindingMovedToU2.Name ∧
      bindingOfU1 ≠ bindingMovedToU2 := by
  refine ⟨by decide, by decide, rfl, by decide⟩

/-- C29: for a binding whose scope is `"cluster"`, that has no constraint
tuples and no project or namespace label, `NewPermission` with an empty
resource name yields the one-entry constraint map `res:cluster = ""`; that
permission is in constraint for every request without a cluster dimension and
for no request whose cluster value is a non-empty string. -/
theorem NewPermission_empty_cluster_list (userbinding : authv1.UserBinding)
    (resource : schema.GroupResource) (actions : List String)
    (hscope : userbinding.Spec.Scope = "cluster") (htuples : userbinding.Spec.Constraint = [])
    (hproject : userbinding.ProjectName = "") (hnamespace : userbinding.NamespaceName = "") :
    (NewPermission userbinding resource actions "").Constraints = [(ResCluster, "")] ∧
      (∀ constraints : GoMap String, constraints.get? ResCluster = none →
        (NewPermission userbinding resource actions "").IsInConstraint constraints = true) ∧
      (∀ (constraints : GoMap String) (c : String),
        constraints.get? ResCluster = some c → c ≠ "" →
        (NewPermission userbinding resource actions "").IsInConstraint constraints = false) := by
  have hmap : (NewPermission userbinding resource actions "").Constraints =
      [(ResCluster, "")] := by
    have hs : userbinding.Spec.Scope = authv1.UserBindingScopeCluster := hscope
    by_cases hcluster : userbinding.NamespaceCluster.length > 0
    · simp [NewPermission, hs, htuples, hproject, hnamespace, hcluster, GoMap.set,
        strings.Join]
    · simp [NewPermission, hs, htuples, hproject, hnamespace, hcluster, GoMap.set,
        strings.Join]
  have hsplit : strings.Split "" ',' = [""] := by decide
  refine ⟨hmap, fun constraints habsent => ?_, fun constraints c hpresent hc => ?_⟩
  · simp [Permission.IsInConstraint, Permission.matchAllConstraints, hmap,
      matchAllConstraintsLoop, GoMap.index, habsent, hsplit, StringInSlice]
  · have hc' : ¬ "" = c := fun e => hc e.symm
    simp [Permission.IsInConstraint, Permission.matchAllConstraints, hmap,
      matchAllConstraintsLoop, GoMap.index, hpresent, hsplit, StringInSlice, hc']

theorem NewPermission_empty_cluster_list_witness :
    (NewPermission emptyClusterBinding ⟨"", "pods"⟩ ["get"] "").Constraints =
        [(ResCluster, "")] ∧
      (NewPermission emptyClusterBinding ⟨"", "pods"⟩ ["get"] "").IsInConstraint
        [(ResProject, "p1")] = true ∧
      (NewPermission emptyClusterBinding ⟨"", "pods"⟩ ["get"] "").IsInConstraint
        [(ResCluster, "c1")] = false := by
  obtain ⟨h1, h2, h3⟩ := NewPermission_empty_cluster_list emptyClusterBinding ⟨"", "pods"⟩
    ["get"] (by decide) (by decide) (by decide) (by decide)
  exact ⟨h1, h2 [(ResProject, "p1")] (by decide), h3 [(ResCluster, "c1")] "c1" (by decide)
    (by decide)⟩

/-- C30: in a binding cache where no index holds an empty inner map,
`removeUserBinding(b)` after `updateUserBinding(b)` restores both indices
exactly when the name of `b` is not yet stored under the subject key nor under
the group key of `b`; and both operations keep every inner map non-empty. -/
theorem removeUserBinding_updateUserBinding (r : userbinding.Resolver)
    (b : authv1.UserBinding) (hcache : userbinding.NoEmptyInner r.cache)
    (hgcache : userbinding.NoEmptyInner r.gcache)
    (hnew : ∀ data, r.cache.get? b.UserEmailName = some data → data.get? b.Name = none)
    (hgnew : ∀ data, r.gcache.get? b.GroupName = some data → data.get? b.Name = none) :
    (r.updateUserBinding (some b)).removeUserBinding (some b) = r ∧
      (∀ cr : Option authv1.UserBinding,
        userbinding.NoEmptyInner (r.updateUserBinding cr).cache ∧
          userbinding.NoEmptyInner (r.updateUserBinding cr).gcache ∧
          userbinding.NoEmptyInner (r.removeUserBinding cr).cache ∧
          userbinding.NoEmptyInner (r.removeUserBinding cr).gcache) := by
  constructor
  · simp only [userbinding.Resolver.updateUserBinding, userbinding.Resolver.removeUserBinding]
    rw [removeIndex_updateIndex r.cache b.UserEmailName b hcache hnew,
      removeIndex_updateIndex r.gcache b.GroupName b hgcache hgnew]
  · intro cr
    cases cr with
    | none => exact ⟨hcache, hgcache, hcache, hgcache⟩
    | some cr =>
      exact ⟨NoEmptyInner_updateIndex _ _ _ hcache, NoEmptyInner_updateIndex _ _ _ hgcache,
        NoEmptyInner_removeIndex _ _ _ hcache, NoEmptyInner_removeIndex _ _ _ hgcache⟩

theorem removeUserBinding_updateUserBinding_witness :
    ((userbinding.Resolver.empty.updateUserBinding (some bindingOfU1)).updateUserBinding
        (some emptyClusterBinding)).removeUserBinding (some emptyClusterBinding) =
      userbinding.Resolver.empty.updateUserBinding (some bindingOfU1) :=
  (removeUserBinding_updateUserBinding
    (userbinding.Resolver.empty.updateUserBinding (some bindingOfU1)) emptyClusterBinding
    (by
      have hc : (userbinding.Resolver.empty.updateUserBinding (some bindingOfU1)).cache =
          [("u1", [("b1", bindingOfU1)])] := by decide
      intro kv hkv
      rw [hc] at hkv
      rw [List.mem_singleton.mp hkv]
      exact List.cons_ne_nil _ _)
    (by
      have hg : (userbinding.Resolver.empty.updateUserBinding (some bindingOfU1)).gcache =
          [] := by decide
      intro kv hkv
      rw [hg] at hkv
      exact absurd hkv (List.not_mem_nil _))
    (by
      intro data hdata
      have h : data = [("b1", bindingOfU1)] := by
        have h0 : (userbinding.Resolver.empty.updateUserBinding (some bindingOfU1)).cache.get?
            emptyClusterBinding.UserEmailName = some [("b1", bindingOfU1)] := by decide
        rw [h0] at hdata
        exact (Option.some.inj hdata).symm
      rw [h]
      decide)
    (by
      intro data hdata
      have h0 : (userbinding.Resolver.empty.updateUserBinding (some bindingOfU1)).gcache.get?
          emptyClusterBinding.GroupName = none := by decide
      rw [h0] at hdata
      exact Option.noConfusion hdata)).1
